import Mathlib

/-!
# Verification of the body-segmentation engine

Shallow embedding of `body_segmentation_tool.py` (class `BodySegmentationTool`):
the geometric segmenter, the clustering segmenter's cluster-to-part mapping and
assignment loop, the transfer segmenter, and the post-processing pass.

Modelling conventions:
* NumPy float64 coordinates are modelled exactly over `ℚ`.  The one place where
  IEEE special values are observable is the normalized-height computation when
  the mesh's vertical extent is zero: there the float code produces `0.0/0.0 =
  NaN`, which we model as `Option ℚ` with `none` for NaN, together with the
  IEEE rule that every comparison against NaN is false.
* A Python dict is modelled as an insertion-ordered association list.
* An uncaught Python exception is modelled as `Except.error` with the message.
-/

set_option maxRecDepth 100000

namespace BodySeg

/-- A 3D vertex position (`self.vertices[i]`), exact-rational model of the
NumPy float64 triple.  `x` is the lateral coordinate (`vertex[0]`), `y` the
vertical coordinate (`vertex[1]`). -/
structure Vec3 where
  x : ℚ
  y : ℚ
  z : ℚ
deriving DecidableEq, Repr

/-- `self.segmentation`: dict from part name to list of vertex indices,
modelled as an insertion-ordered association list. -/
abbrev Segmentation := List (String × List ℕ)

/-- Sum of a list of rationals. -/
def qsum (l : List ℚ) : ℚ := l.foldl (· + ·) 0

/-- `array.mean()` along one axis (used with nonempty input). -/
def qmean (l : List ℚ) : ℚ := qsum l / l.length

/-- `array.min()` of a nonempty list. -/
def qmin : List ℚ → ℚ
  | [] => 0
  | a :: t => t.foldl min a

/-- `array.max()` of a nonempty list. -/
def qmax : List ℚ → ℚ
  | [] => 0
  | a :: t => t.foldl max a

/-- `_normalize_mesh`: translate the vertices so their centroid is the
origin (`self.vertices = self.vertices - center`). -/
def normalize_mesh (vs : List Vec3) : List Vec3 :=
  let cx := qmean (vs.map Vec3.x)
  let cy := qmean (vs.map Vec3.y)
  let cz := qmean (vs.map Vec3.z)
  vs.map (fun v => ⟨v.x - cx, v.y - cy, v.z - cz⟩)

/-- `normalized_heights[i] = (y - bbox_min) / height` as the float code
computes it.  When `height = 0` every vertex satisfies `y = ymin`, so the
float quotient is `0.0/0.0 = NaN`, modelled as `none`. -/
def normHeight (ymin height y : ℚ) : Option ℚ :=
  if height = 0 then none else some ((y - ymin) / height)

/-- Float `a <= h` where `h` may be NaN (`none`): comparisons with NaN are
false. -/
def leF (a : ℚ) (h : Option ℚ) : Bool :=
  match h with
  | none => false
  | some q => decide (a ≤ q)

/-- Float `h <= a` where `h` may be NaN. -/
def leF' (h : Option ℚ) (a : ℚ) : Bool :=
  match h with
  | none => false
  | some q => decide (q ≤ a)

/-- Float `h < a` where `h` may be NaN. -/
def ltF (h : Option ℚ) (a : ℚ) : Bool :=
  match h with
  | none => false
  | some q => decide (q < a)

/-- Float `a < h` where `h` may be NaN. -/
def ltF' (a : ℚ) (h : Option ℚ) : Bool :=
  match h with
  | none => false
  | some q => decide (a < q)

/-- Float `a < b` where either side may be NaN. -/
def ltO (a b : Option ℚ) : Bool :=
  match a, b with
  | some p, some q => decide (p < q)
  | _, _ => false

/-- The `height_ranges` dict of `geometric_segmentation`, in insertion
order: body, left_arm, right_arm, left_leg, right_leg, face_internal.
`0.45 = 9/20`, `0.80 = 4/5`, `0.85 = 17/20`. -/
def height_ranges : List (String × ℚ × ℚ) :=
  [("body", 9/20, 4/5), ("left_arm", 9/20, 4/5), ("right_arm", 9/20, 4/5),
   ("left_leg", 0, 9/20), ("right_leg", 0, 9/20), ("face_internal", 17/20, 1)]

/-- The part names, i.e. `height_ranges.keys()`. -/
def partNames : List String := height_ranges.map Prod.fst

/-- `_is_valid_for_part(vertex_idx, part_name, height_norm)`.  The method
reads only `vertex[0]` (the lateral coordinate), passed here as `x`; `h` is
the possibly-NaN normalized height.  The name tests appear in the source's
order, with the final `return True` fallback. -/
def is_valid_for_part (x : ℚ) (part : String) (h : Option ℚ) : Bool :=
  if part = "left_arm" then decide (x < 0)
  else if part = "right_arm" then decide (0 < x)
  else if part = "left_leg" then decide (x < 0) && ltF h (1/2)
  else if part = "right_leg" then decide (0 < x) && ltF h (1/2)
  else if part = "face_internal" then ltF' (17/20) h
  else if part = "body" then leF (9/20) h && leF' h (4/5) && decide (|x| < 3/10)
  else true

/-- The per-band test of the assignment loop: `min_h <= height_norm <= max_h`
together with `_is_valid_for_part`. -/
def bandMatches (x : ℚ) (h : Option ℚ) (e : String × ℚ × ℚ) : Bool :=
  leF e.2.1 h && leF' h e.2.2 && is_valid_for_part x e.1 h

/-- `np.mean(height_ranges[x])`: the midpoint of a band interval. -/
def midpt (r : ℚ × ℚ) : ℚ := (r.1 + r.2) / 2

/-- `abs(height_norm - np.mean(height_ranges[x]))`; NaN when `h` is NaN. -/
def distTo (h : Option ℚ) (r : ℚ × ℚ) : Option ℚ :=
  h.map (fun q => |q - midpt r|)

/-- The fallback `min(height_ranges.keys(), key=...)`: Python `min` keeps the
first element and replaces it only when a later key compares strictly
smaller, so ties (and NaN keys) keep the earliest label. -/
def closest_part (h : Option ℚ) : String :=
  match height_ranges with
  | [] => "body"
  | e :: rest =>
    (rest.foldl
      (fun acc e2 => if ltO (distTo h e2.2) acc.2 then (e2.1, distTo h e2.2) else acc)
      (e.1, distTo h e.2)).1

/-- The body of the per-vertex assignment loop: the vertex goes to the first
band whose interval and predicate both hold (`break` after the first match),
and otherwise to the closest part by interval midpoint. -/
def assigned_part (x : ℚ) (h : Option ℚ) : String :=
  match height_ranges.find? (bandMatches x h) with
  | some e => e.1
  | none => closest_part h

/-- `self.segmentation[k].append(i)`.  In the geometric loop the key always
exists (`assigned_part` returns a declared part name, see
`assigned_part_mem_partNames`); a missing key, which in Python would raise
KeyError, is unreachable there and modelled as a no-op. -/
def dictListAppend (s : Segmentation) (k : String) (i : ℕ) : Segmentation :=
  s.map (fun e => if e.1 = k then (e.1, e.2 ++ [i]) else e)

/-- The initialization loop `self.segmentation[part_name] = []` over
`height_ranges.keys()`. -/
def initSeg : Segmentation := height_ranges.map (fun e => (e.1, []))

/-- The enumerated assignment decisions of the main loop: for each index `i`
(from `enumerate(normalized_heights)`) the part chosen for vertex `i`, which
depends on the centered vertex (`self.vertices[i][0]`) and its normalized
height. -/
def loopItems (vs : List Vec3) (hs : List (Option ℚ)) : List (ℕ × String) :=
  (vs.zip hs).enum.map (fun e => (e.1, assigned_part e.2.1.x e.2.2))

/-- Folding the per-vertex appends over the segmentation dict. -/
def runLoop (items : List (ℕ × String)) (s : Segmentation) : Segmentation :=
  items.foldl (fun acc e => dictListAppend acc e.2 e.1) s

/-- `_post_process_segmentation`.  Deletes every part with fewer than 10
vertices, then appends all unassigned indices to `body`
(`self.segmentation['body'].extend(...)`), which raises KeyError when `body`
itself was deleted.  Python iterates `list(set(range(n)) - assigned)` in an
unspecified order; we use ascending order, and every property proved below
is order-insensitive. -/
def post_process_segmentation (s : Segmentation) (n : ℕ) : Except String Segmentation :=
  let s1 := s.filter (fun e => 10 ≤ e.2.length)
  let unassigned := (List.range n).filter (fun i => !s1.any (fun e => e.2.contains i))
  if unassigned.isEmpty then .ok s1
  else
    match s1.lookup "body" with
    | none => .error "KeyError: body"
    | some l => .ok (s1.map (fun e => if e.1 = "body" then (e.1, l ++ unassigned) else e))

/-- `geometric_segmentation`.  Takes the loaded vertex list (mesh I/O and
printing are external).  `Except.error` models an uncaught Python exception:
NumPy's ValueError when `self.vertices.min(axis=0)` runs on an empty array,
and the KeyError of the post-processing step. -/
def geometric_segmentation (vs0 : List Vec3) : Except String Segmentation :=
  let vs := normalize_mesh vs0
  if vs.isEmpty then
    .error "ValueError: zero-size array to reduction operation minimum"
  else
    let ys := vs.map Vec3.y
    let ymin := qmin ys
    let ymax := qmax ys
    let height := ymax - ymin
    let hs := ys.map (normHeight ymin height)
    post_process_segmentation (runLoop (loopItems vs hs) initSeg) vs.length

/-- The vertical bounding-box extent (`bbox_max[1] - bbox_min[1]`) that
`geometric_segmentation` computes after centering. -/
def meshHeight (vs0 : List Vec3) : ℚ :=
  let ys := (normalize_mesh vs0).map Vec3.y
  qmax ys - qmin ys

/-! ## Clustering segmenter (`cluster_based_segmentation`) -/

/-- `body_parts` of `_map_clusters_to_parts`, bottom to top. -/
def body_parts : List String :=
  ["left_leg", "right_leg", "body", "left_arm", "right_arm", "face_internal"]

/-- `StandardScaler.inverse_transform` on one feature column:
`x * scale_ + mean_`. -/
def inverse_transform (mean scale x : ℚ) : ℚ := x * scale + mean

/-- `np.argsort(heights)`: the cluster ids `0..k-1` sorted ascending by
height.  NumPy's default sort leaves the relative order of equal values
unspecified; we use a stable sort (no claim below depends on ties). -/
def argsortAsc (hts : List ℚ) : List ℕ :=
  List.insertionSort (fun i j => hts.getD i 0 ≤ hts.getD j 0) (List.range hts.length)

/-- The `cluster_to_part` dict built by `_map_clusters_to_parts`: the loop
`for i, cluster_idx in enumerate(sorted_indices)` assigns
`body_parts[i]` when `i < len(body_parts)` and `'body'` otherwise. -/
def clusterToPart (hts : List ℚ) : List (ℕ × String) :=
  (argsortAsc hts).enum.map
    (fun e => (e.2, if e.1 < body_parts.length then body_parts.getD e.1 "body" else "body"))

/-- `heights = centers_original[:, 1]`: the centroids' vertical coordinates
after `scaler.inverse_transform` (only column 1 of the centroids is
consulted by `_map_clusters_to_parts`). -/
def centersOriginalY (centersY : List ℚ) (meanY scaleY : ℚ) : List ℚ :=
  centersY.map (inverse_transform meanY scaleY)

/-- `_map_clusters_to_parts(cluster_centers, scaler)`: invert the
standardization on the centroids, read off the vertical coordinates, and map
the height-sorted clusters to parts. -/
def map_clusters_to_parts (centersY : List ℚ) (meanY scaleY : ℚ) : List (ℕ × String) :=
  clusterToPart (centersOriginalY centersY meanY scaleY)

/-- The dict access `cluster_to_part[label]`.  KMeans labels lie in `[0,k)`
and `clusterToPart` has every id in `[0,k)` as a key (`clusterToPart_keys`
below), so the Python KeyError is unreachable and the default is never
exercised. -/
def partOfCluster (c2p : List (ℕ × String)) (l : ℕ) : String :=
  (c2p.lookup l).getD "body"

/-- `if part_name not in self.segmentation: self.segmentation[part_name] = []`
followed by `self.segmentation[part_name].append(i)`: append to an existing
key's list, or insert the new key (with list `[i]`) at the end. -/
def dictAppendCreate (s : Segmentation) (k : String) (i : ℕ) : Segmentation :=
  if (s.map Prod.fst).contains k then dictListAppend s k i else s ++ [(k, [i])]

/-- The assignment loop of `cluster_based_segmentation`
(`for i, label in enumerate(cluster_labels)`).  It appends on top of the
instance's current `self.segmentation` (`prior`); the method never clears
it. -/
def clusterAssign (prior : Segmentation) (c2p : List (ℕ × String))
    (labels : List ℕ) : Segmentation :=
  labels.enum.foldl (fun s e => dictAppendCreate s (partOfCluster c2p e.2) e.1) prior

/-- `cluster_based_segmentation(n_clusters)`.  The KMeans/StandardScaler
stage is an external float library call, modelled by its outputs: the
per-vertex cluster labels and the centroids' standardized vertical
coordinates plus the scaler's vertical mean and scale.  With
`random_state=42` that stage is deterministic, so two calls on the same
mesh receive identical parameters. -/
def cluster_based_segmentation (prior : Segmentation) (centersY : List ℚ)
    (meanY scaleY : ℚ) (labels : List ℕ) : Segmentation :=
  clusterAssign prior (map_clusters_to_parts centersY meanY scaleY) labels

/-! ## Transfer segmenter (`transfer_segmentation`) -/

/-- Squared Euclidean distance.  `scipy.spatial.distance.cdist` computes the
Euclidean distance and `np.argmin` selects its minimum along the reference
axis; the square root is strictly monotone, so comparing squared distances
yields the same argmin while staying exactly representable over `ℚ`. -/
def sqDist (a b : Vec3) : ℚ := (a.x - b.x) ^ 2 + (a.y - b.y) ^ 2 + (a.z - b.z) ^ 2

/-- `np.argmin`: the index of the minimum value; with multiple occurrences
of the minimum the first index is returned (documented NumPy behavior).
NumPy rejects an empty input; we return 0 there (unused). -/
def argminIdx : List ℚ → ℕ
  | [] => 0
  | [_] => 0
  | d :: d2 :: t => if d ≤ qmin (d2 :: t) then 0 else argminIdx (d2 :: t) + 1

/-- `closest_indices = np.argmin(cdist(self.vertices, ref_mesh.vertices),
axis=1)`: for each target vertex the index of its nearest reference
vertex. -/
def closestIndices (target ref : List Vec3) : List ℕ :=
  target.map (fun v => argminIdx (ref.map (sqDist v)))

/-- The dict assignment `self.segmentation[part_name] = v`: replace the
value in place when the key exists, otherwise insert the key at the end. -/
def dictSet (s : Segmentation) (k : String) (v : List ℕ) : Segmentation :=
  if (s.map Prod.fst).contains k then s.map (fun e => if e.1 = k then (e.1, v) else e)
  else s ++ [(k, v)]

/-- The inner loop of `transfer_segmentation` for one reference label: all
target indices `i` (ascending) with `closest_indices[i] in ref_vertices`. -/
def transferList (ci : List ℕ) (refVertices : List ℕ) : List ℕ :=
  (ci.enum.filter (fun p => refVertices.contains p.2)).map Prod.fst

/-- `transfer_segmentation`: for each reference label (scanned in the
reference segmentation's order) set its target list to the transferred
index list.  Mesh and JSON loading are external; `prior` is the instance's
`self.segmentation` at call time (`{}` on a fresh tool). -/
def transfer_segmentation (prior : Segmentation) (target ref : List Vec3)
    (refSeg : Segmentation) : Segmentation :=
  let ci := closestIndices target ref
  refSeg.foldl (fun s e => dictSet s e.1 (transferList ci e.2)) prior

/-! ## Basic lemmas -/

theorem beqString (a b : String) : (a == b) = decide (a = b) := by
  by_cases h : a = b <;> simp [h]

theorem dictListAppend_keys (s : Segmentation) (k : String) (i : ℕ) :
    (dictListAppend s k i).map Prod.fst = s.map Prod.fst := by
  unfold dictListAppend
  rw [List.map_map]
  apply List.map_congr_left
  intro e _
  by_cases h : e.1 = k <;> simp [h]

/-- The assignment loop distributes over the association list: every entry's
list is extended, in order, by the indices of the items carrying its key. -/
theorem runLoop_eq (items : List (ℕ × String)) (s : Segmentation) :
    runLoop items s
      = s.map (fun e => (e.1, e.2 ++ (items.filter (fun it => it.2 = e.1)).map Prod.fst)) := by
  induction items generalizing s with
  | nil => simp [runLoop]
  | cons a t ih =>
    have step : runLoop (a :: t) s = runLoop t (dictListAppend s a.2 a.1) := by
      simp [runLoop]
    rw [step, ih, dictListAppend]
    rw [List.map_map]
    apply List.map_congr_left
    intro e _
    by_cases h : e.1 = a.2
    · simp [h, Function.comp, List.filter_cons, List.append_assoc]
    · have h2 : ¬ (a.2 = e.1) := fun hh => h hh.symm
      simp [h, h2, Function.comp, List.filter_cons]

theorem runLoop_initSeg (items : List (ℕ × String)) :
    runLoop items initSeg
      = height_ranges.map
          (fun b => (b.1, (items.filter (fun it => it.2 = b.1)).map Prod.fst)) := by
  rw [initSeg, runLoop_eq, List.map_map]
  rfl

/-- Membership in the loop's assignment decisions: item `(i, p)` occurs
exactly when `i` indexes some vertex/height pair assigned to part `p`. -/
theorem mem_loopItems {vs : List Vec3} {hs : List (Option ℚ)} {i : ℕ} {p : String} :
    (i, p) ∈ loopItems vs hs ↔
      ∃ v h, vs[i]? = some v ∧ hs[i]? = some h ∧ p = assigned_part v.x h := by
  unfold loopItems
  constructor
  · intro hm
    rcases List.mem_map.mp hm with ⟨e, he, heq⟩
    have h1 : e.1 = i := congrArg Prod.fst heq
    have h2 : assigned_part e.2.1.x e.2.2 = p := congrArg Prod.snd heq
    have hg : (vs.zip hs)[e.1]? = some e.2 := List.mem_enum_iff_getElem?.mp he
    rcases List.getElem?_zip_eq_some.mp hg with ⟨hv, hh⟩
    exact ⟨e.2.1, e.2.2, h1 ▸ hv, h1 ▸ hh, h2.symm⟩
  · rintro ⟨v, h, h1, h2, rfl⟩
    apply List.mem_map.mpr
    refine ⟨(i, (v, h)), ?_, rfl⟩
    exact List.mem_enum_iff_getElem?.mpr (List.getElem?_zip_eq_some.mpr ⟨h1, h2⟩)

theorem closest_part_mem (h : Option ℚ) : closest_part h ∈ partNames := by
  unfold closest_part height_ranges
  simp only [List.foldl]
  split_ifs <;> simp [partNames, height_ranges]

theorem assigned_part_mem_partNames (x : ℚ) (h : Option ℚ) :
    assigned_part x h ∈ partNames := by
  unfold assigned_part
  cases hf : height_ranges.find? (bandMatches x h) with
  | none => exact closest_part_mem h
  | some e =>
    exact List.mem_map_of_mem Prod.fst (List.mem_of_find?_eq_some hf)

/-- `List.find?` returns the positionally first satisfying element. -/
theorem find?_of_first {α : Type} (p : α → Bool) :
    ∀ (l : List α) (j : ℕ) (hj : j < l.length),
      p (l.get ⟨j, hj⟩) = true →
      (∀ k (hk : k < j), ¬ p (l.get ⟨k, Nat.lt_trans hk hj⟩) = true) →
      l.find? p = some (l.get ⟨j, hj⟩) := by
  intro l
  induction l with
  | nil => intro j hj; exact absurd hj (Nat.not_lt_zero j)
  | cons a t ih =>
    intro j hj hp hfirst
    cases j with
    | zero => simp only [List.get] at hp ⊢; simp [List.find?_cons, hp]
    | succ j2 =>
      have ha : ¬ p a = true := hfirst 0 (Nat.succ_pos j2)
      have hj2 : j2 < t.length := Nat.lt_of_succ_lt_succ hj
      have := ih j2 hj2 hp (fun k hk => hfirst (k + 1) (Nat.succ_lt_succ hk))
      simp only [List.find?_cons]
      cases hpa : p a with
      | true => exact absurd hpa ha
      | false => exact this

/-- The running-minimum fold (Python `min(..., key=...)`): the result carries
its own key, its key is a lower bound for all keys, and the result is the
positionally first element attaining that key. -/
theorem argminFold_spec {α : Type} (key : α → ℚ) :
    ∀ (l : List α) (a0 : α) (r : α × ℚ),
      l.foldl (fun acc y => if key y < acc.2 then (y, key y) else acc) (a0, key a0) = r →
      r.2 = key r.1 ∧ (∀ x ∈ a0 :: l, key r.1 ≤ key x)
        ∧ (a0 :: l).find? (fun x => decide (key x = key r.1)) = some r.1 := by
  intro l
  induction l with
  | nil =>
    intro a0 r hr
    simp only [List.foldl] at hr
    subst hr
    refine ⟨rfl, ?_, ?_⟩
    · intro x hx
      rcases List.mem_singleton.mp hx with rfl
      exact le_refl _
    · simp [List.find?_cons]
  | cons b t ih =>
    intro a0 r hr
    by_cases hb : key b < key a0
    · have hr2 : t.foldl (fun acc y => if key y < acc.2 then (y, key y) else acc) (b, key b) = r := by
        simpa [hb] using hr
      obtain ⟨hk, hbound, hfind⟩ := ih b r hr2
      refine ⟨hk, ?_, ?_⟩
      · intro x hx
        rcases List.mem_cons.mp hx with rfl | hx2
        · exact le_of_lt (lt_of_le_of_lt (hbound b (List.mem_cons_self b t)) hb)
        · exact hbound x hx2
      · have hne : ¬ (key a0 = key r.1) := by
          have h1 : key r.1 ≤ key b := hbound b (List.mem_cons_self b t)
          exact fun he => absurd (he ▸ lt_of_le_of_lt h1 hb) (lt_irrefl _)
        rw [List.find?_cons, decide_eq_false hne]
        exact hfind
    · have hr2 : t.foldl (fun acc y => if key y < acc.2 then (y, key y) else acc) (a0, key a0) = r := by
        simpa [hb] using hr
      obtain ⟨hk, hbound, hfind⟩ := ih a0 r hr2
      have hba : key a0 ≤ key b := le_of_not_lt hb
      refine ⟨hk, ?_, ?_⟩
      · intro x hx
        rcases List.mem_cons.mp hx with rfl | hx2
        · exact hbound x (List.mem_cons_self x t)
        · rcases List.mem_cons.mp hx2 with rfl | hx3
          · exact le_trans (hbound a0 (List.mem_cons_self a0 t)) hba
          · exact hbound x (List.mem_cons.mpr (Or.inr hx3))
      · by_cases ha0 : key a0 = key r.1
        · have : (a0 :: t).find? (fun x => decide (key x = key r.1)) = some a0 := by
            simp [List.find?_cons, ha0]
          have hra : a0 = r.1 := by
            rw [this] at hfind
            exact Option.some_injective _ hfind
          simp [List.find?_cons, ha0, hra]
        · have hfind2 : t.find? (fun x => decide (key x = key r.1)) = some r.1 := by
            simpa [List.find?_cons, ha0] using hfind
          have hbne : ¬ (key b = key r.1) := by
            intro he
            have h1 : key r.1 ≤ key a0 := hbound a0 (List.mem_cons_self a0 t)
            have h2 : key r.1 < key a0 := lt_of_le_of_ne h1 (fun hh => ha0 hh.symm)
            exact hb (he ▸ h2)
          simp [List.find?_cons, ha0, hbne, hfind2]

/-- On a real (non-NaN) height the NaN-aware running minimum of
`closest_part` coincides with the rational running minimum. -/
theorem closest_part_fold_bridge (q : ℚ) :
    ∀ (l : List (String × ℚ × ℚ)) (aQ : (String × ℚ × ℚ) × ℚ),
      l.foldl
        (fun acc e2 => if ltO (distTo (some q) e2.2) acc.2 then (e2.1, distTo (some q) e2.2) else acc)
        (aQ.1.1, some aQ.2)
      = ((l.foldl (fun acc y => if |q - midpt y.2| < acc.2 then (y, |q - midpt y.2|) else acc) aQ).1.1,
         some (l.foldl (fun acc y => if |q - midpt y.2| < acc.2 then (y, |q - midpt y.2|) else acc) aQ).2) := by
  intro l
  induction l with
  | nil => intro aQ; rfl
  | cons e t ih =>
    intro aQ
    by_cases hc : |q - midpt e.2| < aQ.2
    · have h1 : ltO (distTo (some q) e.2) (some aQ.2) = true := by
        simp [ltO, distTo, hc]
      simp only [List.foldl_cons, h1, if_true, if_pos hc]
      exact ih (e, |q - midpt e.2|)
    · have h1 : ltO (distTo (some q) e.2) (some aQ.2) = false := by
        simp [ltO, distTo, hc]
      simp only [List.foldl_cons, h1, Bool.false_eq_true, if_false, if_neg hc]
      exact ih aQ

/-- Characterization of the fallback label on a real normalized height: it
is the positionally first part whose band midpoint minimizes the distance to
the height. -/
theorem closest_part_some (q : ℚ) :
    ∃ e ∈ height_ranges, closest_part (some q) = e.1
      ∧ (∀ e2 ∈ height_ranges, |q - midpt e.2| ≤ |q - midpt e2.2|)
      ∧ height_ranges.find?
          (fun e2 => decide (|q - midpt e2.2| = |q - midpt e.2|)) = some e := by
  have hsplit : height_ranges
      = ("body", (9 : ℚ)/20, (4 : ℚ)/5) :: height_ranges.tail := rfl
  have hbridge := closest_part_fold_bridge q height_ranges.tail
    ((("body", (9 : ℚ)/20, (4 : ℚ)/5), |q - midpt ((9 : ℚ)/20, (4 : ℚ)/5)|))
  have hcp : closest_part (some q)
      = ((height_ranges.tail.foldl
            (fun acc y => if |q - midpt y.2| < acc.2 then (y, |q - midpt y.2|) else acc)
            (("body", (9 : ℚ)/20, (4 : ℚ)/5), |q - midpt ((9 : ℚ)/20, (4 : ℚ)/5)|)).1).1 :=
    congrArg Prod.fst hbridge
  obtain ⟨hk, hbound, hfind⟩ :=
    argminFold_spec (fun y : String × ℚ × ℚ => |q - midpt y.2|) height_ranges.tail
      ("body", (9 : ℚ)/20, (4 : ℚ)/5)
      (height_ranges.tail.foldl
        (fun acc y => if |q - midpt y.2| < acc.2 then (y, |q - midpt y.2|) else acc)
        (("body", (9 : ℚ)/20, (4 : ℚ)/5), |q - midpt ((9 : ℚ)/20, (4 : ℚ)/5)|)) rfl
  refine ⟨_, ?_, hcp, ?_, ?_⟩
  · rw [hsplit]
    exact List.mem_of_find?_eq_some hfind
  · intro e2 he2
    rw [hsplit] at he2
    exact hbound e2 he2
  · rw [hsplit]
    exact hfind

/-! ## Claim theorems: geometric per-vertex assignment -/

/-- C3: every vertex is assigned to the first band, in the fixed scan order
body, left_arm, right_arm, left_leg, right_leg, face_internal, whose height
interval contains its normalized height and whose lateral predicate holds;
in particular a vertex at normalized height 0.60 with lateral coordinate 0
goes to `body`, while one at normalized height 0.60 with lateral coordinate
-1.0 goes to `left_arm` (body's predicate requires |lateral| < 0.3). -/
theorem claim_first_band_assignment :
    (∀ (x : ℚ) (h : Option ℚ) (j : ℕ) (hj : j < height_ranges.length),
        bandMatches x h (height_ranges.get ⟨j, hj⟩) = true →
        (∀ k (hk : k < j), ¬ bandMatches x h (height_ranges.get ⟨k, Nat.lt_trans hk hj⟩) = true) →
        assigned_part x h = (height_ranges.get ⟨j, hj⟩).1)
    ∧ assigned_part 0 (some (3/5)) = "body"
    ∧ assigned_part (-1) (some (3/5)) = "left_arm" := by
  refine ⟨?_, ?_, ?_⟩
  · intro x h j hj hmatch hfirst
    have hfd := find?_of_first (bandMatches x h) height_ranges j hj hmatch hfirst
    unfold assigned_part
    rw [hfd]
  · norm_num +decide [assigned_part, closest_part, bandMatches, is_valid_for_part,
      height_ranges, leF, leF', ltF, ltF', ltO, distTo, midpt, List.find?]
  · norm_num +decide [assigned_part, closest_part, bandMatches, is_valid_for_part,
      height_ranges, leF, leF', ltF, ltF', ltO, distTo, midpt, List.find?]

theorem claim_first_band_assignment_witness :
    assigned_part 5 (some (1/2)) = "right_arm" := by
  have hj : (2 : ℕ) < height_ranges.length := by norm_num [height_ranges]
  have hm : bandMatches 5 (some (1/2)) (height_ranges.get ⟨2, hj⟩) = true := by
    norm_num +decide [bandMatches, is_valid_for_part, height_ranges, leF, leF',
      ltF, ltF', ltO, List.get]
  have hf : ∀ k (hk : k < 2),
      ¬ bandMatches 5 (some (1/2)) (height_ranges.get ⟨k, Nat.lt_trans hk hj⟩) = true := by
    intro k hk
    interval_cases k <;>
      norm_num +decide [bandMatches, is_valid_for_part, height_ranges, leF, leF',
        ltF, ltF', ltO, List.get]
  have hr := claim_first_band_assignment.1 5 (some (1/2)) 2 hj hm hf
  exact hr.trans rfl

/-- C4: a vertex matching no band is assigned to the label whose band-interval
midpoint is numerically closest to its normalized height, ties broken by band
declaration order (the positionally first minimal-distance label wins). -/
theorem claim_fallback_closest (x q : ℚ)
    (hnone : height_ranges.find? (bandMatches x (some q)) = none) :
    assigned_part x (some q) = closest_part (some q)
    ∧ ∃ e ∈ height_ranges, closest_part (some q) = e.1
        ∧ (∀ e2 ∈ height_ranges, |q - midpt e.2| ≤ |q - midpt e2.2|)
        ∧ height_ranges.find?
            (fun e2 => decide (|q - midpt e2.2| = |q - midpt e.2|)) = some e := by
  constructor
  · unfold assigned_part
    rw [hnone]
  · exact closest_part_some q

theorem claim_fallback_closest_witness :
    height_ranges.find? (bandMatches 0 (some (83/100))) = none
    ∧ assigned_part 0 (some (83/100)) = closest_part (some (83/100)) := by
  have hn : height_ranges.find? (bandMatches 0 (some (83/100))) = none := by
    norm_num +decide [bandMatches, is_valid_for_part, height_ranges, leF, leF',
      ltF, ltF', ltO, List.find?]
  exact ⟨hn, (claim_fallback_closest 0 (83/100) hn).1⟩

/-! ## Degenerate meshes (zero vertices / zero height) -/

theorem bandMatches_nan (x : ℚ) (e : String × ℚ × ℚ) :
    bandMatches x none e = false := by
  simp [bandMatches, leF]

/-- With a NaN normalized height every interval test fails and the fallback
`min` keeps its first key, so the vertex is assigned to `body`. -/
theorem assigned_part_nan (x : ℚ) : assigned_part x none = "body" := by
  have hf : height_ranges.find? (bandMatches x none) = none :=
    List.find?_eq_none.mpr (fun e _ => by simp [bandMatches_nan])
  unfold assigned_part
  rw [hf]
  rfl

theorem loopItems_nan_all_body {vs : List Vec3} {hs : List (Option ℚ)}
    (hall : ∀ h ∈ hs, h = none) :
    ∀ it ∈ loopItems vs hs, it.2 = "body" := by
  intro it hit
  rcases List.mem_map.mp hit with ⟨e, he, rfl⟩
  have hz : e.2 ∈ vs.zip hs := by
    have := List.mem_enum_iff_getElem?.mp he
    exact List.getElem?_mem this
  have hh : e.2.2 ∈ hs := (List.of_mem_zip hz).2
  rw [hall e.2.2 hh]
  exact assigned_part_nan e.2.1.x

theorem post_process_body_all (N : ℕ) (hN : 10 ≤ N) :
    post_process_segmentation
      [("body", List.range N), ("left_arm", []), ("right_arm", []),
       ("left_leg", []), ("right_leg", []), ("face_internal", [])] N
      = .ok [("body", List.range N)] := by
  have hfil : List.filter (fun e : String × List ℕ => decide (10 ≤ e.2.length))
      [("body", List.range N), ("left_arm", []), ("right_arm", []),
       ("left_leg", []), ("right_leg", []), ("face_internal", [])]
      = [("body", List.range N)] := by
    simp [List.filter, List.length_range, hN]
  have hun : (List.range N).filter
      (fun i => !([("body", List.range N)] : Segmentation).any (fun e => e.2.contains i)) = [] := by
    apply List.filter_eq_nil_iff.mpr
    intro i hi
    simp only [List.any_cons, List.any_nil, Bool.or_false, Bool.not_eq_true,
      Bool.not_eq_true']
    simpa using hi
  simp only [post_process_segmentation, hfil, hun, List.isEmpty_nil, if_true]

/-- C2 (amended): with zero vertices the call aborts with NumPy's
ValueError; but with a height-0 mesh of at least 10 vertices the call does
NOT abort — every band test fails on the NaN normalized heights, the
fallback sends every vertex to `body`, and the call returns the total
segmentation `{body: all indices}`. -/
theorem claim_degenerate_mesh :
    geometric_segmentation []
      = .error "ValueError: zero-size array to reduction operation minimum"
    ∧ ∀ (vs : List Vec3), vs ≠ [] → meshHeight vs = 0 → 10 ≤ vs.length →
        geometric_segmentation vs = .ok [("body", List.range vs.length)] := by
  constructor
  · rfl
  · intro vs hne h0 hN
    have hVne : (normalize_mesh vs).isEmpty = false := by
      rw [List.isEmpty_eq_false]
      simp only [normalize_mesh]
      exact fun hc => hne (List.map_eq_nil_iff.mp hc)
    have hlen : (normalize_mesh vs).length = vs.length := by
      simp [normalize_mesh]
    simp only [geometric_segmentation, hVne, Bool.false_eq_true, if_false]
    have hhs : ∀ h ∈ ((normalize_mesh vs).map Vec3.y).map
        (normHeight (qmin ((normalize_mesh vs).map Vec3.y))
          (qmax ((normalize_mesh vs).map Vec3.y) - qmin ((normalize_mesh vs).map Vec3.y))),
        h = none := by
      intro h hm
      rcases List.mem_map.mp hm with ⟨y, _, rfl⟩
      have h0' : qmax ((normalize_mesh vs).map Vec3.y) - qmin ((normalize_mesh vs).map Vec3.y)
          = 0 := h0
      unfold normHeight
      rw [if_pos h0']
    have hitems : ∀ it ∈ loopItems (normalize_mesh vs)
      (((normalize_mesh vs).map Vec3.y).map
        (normHeight (qmin ((normalize_mesh vs).map Vec3.y))
          (qmax ((normalize_mesh vs).map Vec3.y) - qmin ((normalize_mesh vs).map Vec3.y)))),
      it.2 = "body" := loopItems_nan_all_body hhs
    set items := loopItems (normalize_mesh vs)
      (((normalize_mesh vs).map Vec3.y).map
        (normHeight (qmin ((normalize_mesh vs).map Vec3.y))
          (qmax ((normalize_mesh vs).map Vec3.y) - qmin ((normalize_mesh vs).map Vec3.y)))) with hitemsdef
    have hfb : items.filter (fun it => it.2 = "body") = items := by
      apply List.filter_eq_self.mpr
      intro it hit
      simp [hitems it hit]
    have hother : ∀ p : String, ¬ ("body" = p) → items.filter (fun it => it.2 = p) = [] := by
      intro p hp
      apply List.filter_eq_nil_iff.mpr
      intro it hit
      rw [hitems it hit]
      simp [hp]
    have hfst : items.map Prod.fst = List.range vs.length := by
      rw [hitemsdef]
      unfold loopItems
      rw [List.map_map]
      have : (Prod.fst ∘ fun e : ℕ × (Vec3 × Option ℚ) => (e.1, assigned_part e.2.1.x e.2.2))
          = Prod.fst := rfl
      rw [this, List.enum_map_fst, List.length_zip, List.length_map, List.length_map, hlen,
        min_self]
    rw [runLoop_initSeg]
    have hmap : height_ranges.map
        (fun b => (b.1, (items.filter (fun it => it.2 = b.1)).map Prod.fst))
        = [("body", List.range vs.length), ("left_arm", []), ("right_arm", []),
           ("left_leg", []), ("right_leg", []), ("face_internal", [])] := by
      simp only [height_ranges, List.map_cons, List.map_nil]
      rw [hfb, hfst]
      rw [hother "left_arm" (by decide), hother "right_arm" (by decide),
        hother "left_leg" (by decide), hother "right_leg" (by decide),
        hother "face_internal" (by decide)]
      rfl
    rw [hmap, hlen]
    exact post_process_body_all vs.length hN

/-- C2 counterexample: a 10-vertex mesh whose vertices share one vertical
coordinate (height = 0) does not abort; it returns a segmentation. -/
theorem claim_degenerate_mesh_counterexample :
    meshHeight (List.replicate 10 ⟨0, 5, 0⟩) = 0
    ∧ List.replicate 10 (⟨0, 5, 0⟩ : Vec3) ≠ []
    ∧ geometric_segmentation (List.replicate 10 ⟨0, 5, 0⟩)
        = .ok [("body", [0, 1, 2, 3, 4, 5, 6, 7, 8, 9])] := by
  refine ⟨?_, by simp [List.replicate], ?_⟩
  · norm_num [meshHeight, normalize_mesh, qmean, qsum, qmin, qmax, List.replicate]
  · norm_num +decide [geometric_segmentation, normalize_mesh, qmean, qsum, qmin, qmax,
      post_process_segmentation, runLoop, loopItems, initSeg, dictListAppend,
      assigned_part, closest_part, bandMatches, is_valid_for_part, normHeight,
      height_ranges, leF, leF', ltF, ltF', ltO, distTo, midpt, List.replicate,
      List.enum, List.enumFrom, List.zip, List.zipWith, List.range, List.range.loop,
      List.foldl, List.filter, List.lookup, List.find?, beqString,
      abs_of_nonneg, abs_of_nonpos]

/-! ## Cluster-to-part mapping -/

instance (hts : List ℚ) : IsTotal ℕ (fun i j => hts.getD i 0 ≤ hts.getD j 0) :=
  ⟨fun _ _ => le_total _ _⟩

instance (hts : List ℚ) : IsTrans ℕ (fun i j => hts.getD i 0 ≤ hts.getD j 0) :=
  ⟨fun _ _ _ => le_trans⟩

theorem argsortAsc_perm (hts : List ℚ) :
    (argsortAsc hts).Perm (List.range hts.length) :=
  List.perm_insertionSort _ _

theorem argsortAsc_nodup (hts : List ℚ) : (argsortAsc hts).Nodup :=
  ((argsortAsc_perm hts).symm.nodup (List.nodup_range hts.length))

theorem argsortAsc_sorted (hts : List ℚ) :
    List.Sorted (fun i j => hts.getD i 0 ≤ hts.getD j 0) (argsortAsc hts) :=
  List.sorted_insertionSort _ _

/-- In an association list with distinct keys, `lookup` returns the value of
the (unique) entry with the queried key. -/
theorem lookup_of_mem_nodup {α β : Type} [BEq α] [LawfulBEq α] :
    ∀ (l : List (α × β)), (l.map Prod.fst).Nodup → ∀ (k : α) (v : β),
      (k, v) ∈ l → l.lookup k = some v := by
  intro l
  induction l with
  | nil => simp
  | cons e t ih =>
    intro hnd k v hm
    rcases List.mem_cons.mp hm with heq | ht
    · rw [← heq]
      simp [List.lookup_cons]
    · have hk : k ∈ t.map Prod.fst := List.mem_map_of_mem Prod.fst ht
      have hne : ¬ (e.1 = k) := by
        intro hh
        exact (List.nodup_cons.mp (by simpa using hnd)).1 (hh ▸ hk)
      have hbeq : (k == e.1) = false := by
        simp [hne]
        exact fun hh => hne hh.symm
      rw [List.lookup_cons]
      rw [hbeq]
      exact ih (List.nodup_cons.mp (by simpa using hnd)).2 k v ht

theorem clusterToPart_keys (hts : List ℚ) :
    (clusterToPart hts).map Prod.fst = argsortAsc hts := by
  unfold clusterToPart
  rw [List.map_map]
  have : (Prod.fst ∘ fun e : ℕ × ℕ =>
      (e.2, if e.1 < body_parts.length then body_parts.getD e.1 "body" else "body"))
      = Prod.snd := rfl
  rw [this, List.enum_map_snd]

theorem clusterToPart_get (hts : List ℚ) (j : ℕ)
    (hj : j < (argsortAsc hts).length) :
    ((argsortAsc hts).get ⟨j, hj⟩,
      if j < body_parts.length then body_parts.getD j "body" else "body")
      ∈ clusterToPart hts := by
  unfold clusterToPart
  apply List.mem_map.mpr
  refine ⟨(j, (argsortAsc hts).get ⟨j, hj⟩), ?_, rfl⟩
  apply List.mem_enum_iff_getElem?.mpr
  simp [List.getElem?_eq_getElem hj]

/-- C6: clusters sorted by ascending (inverse-transformed) centroid vertical
position receive labels in the fixed order left_leg, right_leg, body,
left_arm, right_arm, face_internal; every assigned label is one of those six
names, and every cluster beyond the sixth in that order is labeled body. -/
theorem claim_cluster_label_order (centersY : List ℚ) (meanY scaleY : ℚ) :
    (∀ e ∈ map_clusters_to_parts centersY meanY scaleY, e.2 ∈ body_parts)
    ∧ (∀ j1 j2 (h2 : j2 < (argsortAsc (centersOriginalY centersY meanY scaleY)).length)
        (hle : j1 ≤ j2),
        (centersOriginalY centersY meanY scaleY).getD
            ((argsortAsc (centersOriginalY centersY meanY scaleY)).get
              ⟨j1, lt_of_le_of_lt hle h2⟩) 0
          ≤ (centersOriginalY centersY meanY scaleY).getD
              ((argsortAsc (centersOriginalY centersY meanY scaleY)).get ⟨j2, h2⟩) 0)
    ∧ (∀ j (hj : j < (argsortAsc (centersOriginalY centersY meanY scaleY)).length),
        (map_clusters_to_parts centersY meanY scaleY).lookup
            ((argsortAsc (centersOriginalY centersY meanY scaleY)).get ⟨j, hj⟩)
          = some (if j < 6 then body_parts.getD j "body" else "body")) := by
  refine ⟨?_, ?_, ?_⟩
  · intro e he
    rcases List.mem_map.mp he with ⟨p, _, rfl⟩
    by_cases hp : p.1 < body_parts.length
    · simp only [hp, if_true]
      rw [List.getD_eq_getElem body_parts "body" hp]
      exact List.getElem_mem hp
    · simp only [hp, if_false]
      decide
  · intro j1 j2 h2 hle
    rcases Nat.lt_or_ge j1 j2 with hlt | hge
    · have hp := List.pairwise_iff_get.mp (argsortAsc_sorted (centersOriginalY centersY meanY scaleY))
      exact hp ⟨j1, lt_of_le_of_lt hle h2⟩ ⟨j2, h2⟩ hlt
    · have : j1 = j2 := le_antisymm hle hge
      subst this
      exact le_refl _
  · intro j hj
    have hmem := clusterToPart_get (centersOriginalY centersY meanY scaleY) j hj
    have hnd : ((clusterToPart (centersOriginalY centersY meanY scaleY)).map Prod.fst).Nodup := by
      rw [clusterToPart_keys]
      exact argsortAsc_nodup _
    exact lookup_of_mem_nodup _ hnd _ _ hmem

theorem claim_cluster_label_order_witness :
    (map_clusters_to_parts [10, 5, 7] 0 1).lookup 1 = some "left_leg" := by
  have h := claim_cluster_label_order [10, 5, 7] 0 1
  have hlen : (argsortAsc (centersOriginalY [10, 5, 7] 0 1)).length = 3 := by
    rw [argsortAsc, List.length_insertionSort, List.length_range]
    rfl
  have hj : (0 : ℕ) < (argsortAsc (centersOriginalY [10, 5, 7] 0 1)).length := by
    rw [hlen]
    norm_num
  have hget : (argsortAsc (centersOriginalY [10, 5, 7] 0 1)).get ⟨0, hj⟩ = 1 := by
    have hsort : argsortAsc (centersOriginalY [10, 5, 7] 0 1) = [1, 2, 0] := by
      norm_num [argsortAsc, centersOriginalY, inverse_transform, List.insertionSort,
        List.orderedInsert, List.range_succ, List.getD, List.getElem?_cons]
    simp [hsort]
  have h3 := h.2.2 0 hj
  rw [hget] at h3
  rw [h3]
  rfl

/-! ## Segmenter state sharing -/

theorem lookup_isSome_eq_contains (s : Segmentation) (k : String) :
    (s.lookup k).isSome = (s.map Prod.fst).contains k := by
  induction s with
  | nil => rfl
  | cons e t ih =>
    rw [List.lookup_cons]
    cases hke : (k == e.1) with
    | true => simp [List.contains_cons, hke]
    | false => simp [List.contains_cons, hke, ih]

theorem dictListAppend_lookup (s : Segmentation) (k : String) (i : ℕ) (p : String) :
    (dictListAppend s k i).lookup p
      = if p = k then (s.lookup p).map (fun l => l ++ [i]) else s.lookup p := by
  induction s with
  | nil => by_cases hp : p = k <;> simp [dictListAppend, hp]
  | cons e t ih =>
    obtain ⟨ek, ev⟩ := e
    unfold dictListAppend at ih ⊢
    by_cases hpe : p = ek
    · have hbeq : (p == ek) = true := by rw [beqString]; simp [hpe]
      by_cases hek : ek = k
      · have hpk : p = k := hpe.trans hek
        simp [List.map_cons, hek, List.lookup_cons, hbeq, hpk]
      · have hpk : ¬ (p = k) := fun hh => hek (hpe ▸ hh)
        simp [List.map_cons, hek, List.lookup_cons, hbeq, hpk]
    · have hbeq : (p == ek) = false := by rw [beqString]; simp [hpe]
      by_cases hek : ek = k
      · simp only [List.map_cons, if_pos hek, List.lookup_cons, hbeq]
        exact ih
      · simp only [List.map_cons, if_neg hek, List.lookup_cons, hbeq]
        exact ih

theorem lookup_append_single (s : Segmentation) (k : String) (v : List ℕ) (p : String) :
    (s ++ [(k, v)]).lookup p
      = match s.lookup p with
        | some w => some w
        | none => if p = k then some v else none := by
  induction s with
  | nil => by_cases hp : p = k <;> simp [List.lookup_cons, beqString, hp]
  | cons e t ih =>
    obtain ⟨ek, ev⟩ := e
    by_cases hpe : p = ek
    · have hbeq : (p == ek) = true := by rw [beqString]; simp [hpe]
      simp only [List.cons_append, List.lookup_cons, hbeq]
    · have hbeq : (p == ek) = false := by rw [beqString]; simp [hpe]
      simp only [List.cons_append, List.lookup_cons, hbeq]
      exact ih

theorem dictAppendCreate_lookup (s : Segmentation) (k : String) (i : ℕ) (p : String) :
    (dictAppendCreate s k i).lookup p
      = if p = k then some ((s.lookup k).getD [] ++ [i]) else s.lookup p := by
  unfold dictAppendCreate
  cases hc : (s.map Prod.fst).contains k with
  | true =>
    rw [if_pos rfl]
    rw [dictListAppend_lookup]
    by_cases hp : p = k
    · subst hp
      have hs : (s.lookup p).isSome := by rw [lookup_isSome_eq_contains, hc]
      rcases Option.isSome_iff_exists.mp hs with ⟨w, hw⟩
      simp [hw]
    · simp [hp]
  | false =>
    rw [if_neg (by simp)]
    rw [lookup_append_single]
    by_cases hp : p = k
    · subst hp
      have hs : ¬ (s.lookup p).isSome := by rw [lookup_isSome_eq_contains, hc]; simp
      have hnone : s.lookup p = none := Option.not_isSome_iff_eq_none.mp hs
      simp [hnone]
    · cases hl : s.lookup p with
      | none => simp [hp]
      | some w => simp [hp, hl]

/-- The cluster assignment fold, at the lookup level: every label's list is
the prior segmentation's list (when present) extended by the freshly
assigned indices; labels absent from the prior behave as on a fresh
instance. -/
theorem clusterFold_lookup :
    ∀ (items : List (ℕ × String)) (s : Segmentation) (p : String),
      (items.foldl (fun acc e => dictAppendCreate acc e.2 e.1) s).lookup p
        = match s.lookup p with
          | some old => some (old ++ (items.filter (fun e => e.2 = p)).map Prod.fst)
          | none => (items.foldl (fun acc e => dictAppendCreate acc e.2 e.1) []).lookup p := by
  intro items
  induction items with
  | nil =>
    intro s p
    cases hl : s.lookup p <;> simp [hl]
  | cons a t ih =>
    intro s p
    have hstep : (a :: t).foldl (fun acc e => dictAppendCreate acc e.2 e.1) s
        = t.foldl (fun acc e => dictAppendCreate acc e.2 e.1) (dictAppendCreate s a.2 a.1) := by
      simp
    rw [hstep, ih]
    have hstep2 : (a :: t).foldl (fun acc e => dictAppendCreate acc e.2 e.1) ([] : Segmentation)
        = t.foldl (fun acc e => dictAppendCreate acc e.2 e.1) (dictAppendCreate [] a.2 a.1) := by
      simp
    by_cases hp : p = a.2
    · have hdec : (decide (a.2 = p)) = true := decide_eq_true hp.symm
      rw [dictAppendCreate_lookup, if_pos hp]
      cases hl : s.lookup p with
      | some old =>
        have hlk : s.lookup a.2 = some old := hp ▸ hl
        simp only [hlk, Option.getD_some, List.filter_cons, hdec, if_true, List.map_cons]
        simp [List.append_assoc]
      | none =>
        have hlk : s.lookup a.2 = none := hp ▸ hl
        have h1 : (dictAppendCreate ([] : Segmentation) a.2 a.1).lookup p = some [a.1] := by
          rw [dictAppendCreate_lookup, if_pos hp]
          rfl
        have hrhs : ((a :: t).foldl (fun acc e => dictAppendCreate acc e.2 e.1)
              ([] : Segmentation)).lookup p
            = some ([a.1] ++ (t.filter (fun e => decide (e.2 = p))).map Prod.fst) := by
          rw [hstep2, ih (dictAppendCreate [] a.2 a.1) p]
          simp only [h1]
        rw [hrhs]
        simp [hlk]
    · have hdec : (decide (a.2 = p)) = false := decide_eq_false (fun hh => hp hh.symm)
      rw [dictAppendCreate_lookup, if_neg hp]
      cases hl : s.lookup p with
      | some old =>
        simp only [hl, List.filter_cons, hdec, Bool.false_eq_true, if_false]
      | none =>
        have h1 : (dictAppendCreate ([] : Segmentation) a.2 a.1).lookup p = none := by
          rw [dictAppendCreate_lookup, if_neg hp]
          rfl
        have hrhs : ((a :: t).foldl (fun acc e => dictAppendCreate acc e.2 e.1)
              ([] : Segmentation)).lookup p
            = (t.foldl (fun acc e => dictAppendCreate acc e.2 e.1)
                ([] : Segmentation)).lookup p := by
          rw [hstep2, ih (dictAppendCreate [] a.2 a.1) p]
          simp only [h1]
        rw [hrhs]

/-- C7 (amended): segmenter calls are not stateless — they share the
instance's mutable `self.segmentation`.  `cluster_based_segmentation`
appends to whatever an earlier call left there: every label present in the
prior mapping comes out as the prior list extended by the fresh cluster
assignment, and only labels absent from the prior mapping behave as on a
fresh instance. -/
theorem claim_segmenter_statefulness (prior : Segmentation) (centersY : List ℚ)
    (meanY scaleY : ℚ) (labels : List ℕ) (p : String) :
    (cluster_based_segmentation prior centersY meanY scaleY labels).lookup p
      = match prior.lookup p with
        | some old => some (old ++ (labels.enum.filter
            (fun e => partOfCluster (map_clusters_to_parts centersY meanY scaleY) e.2 = p)).map
              Prod.fst)
        | none => (cluster_based_segmentation [] centersY meanY scaleY labels).lookup p := by
  have hfold : ∀ s0 : Segmentation,
      labels.enum.foldl
        (fun s e => dictAppendCreate s
          (partOfCluster (map_clusters_to_parts centersY meanY scaleY) e.2) e.1) s0
      = (labels.enum.map (fun e =>
          (e.1, partOfCluster (map_clusters_to_parts centersY meanY scaleY) e.2))).foldl
          (fun acc e => dictAppendCreate acc e.2 e.1) s0 := by
    intro s0
    rw [List.foldl_map]
  show (labels.enum.foldl
      (fun s e => dictAppendCreate s
        (partOfCluster (map_clusters_to_parts centersY meanY scaleY) e.2) e.1) prior).lookup p
    = _
  rw [hfold prior, clusterFold_lookup]
  have hitems : ((labels.enum.map (fun e =>
      (e.1, partOfCluster (map_clusters_to_parts centersY meanY scaleY) e.2))).filter
        (fun it => it.2 = p)).map Prod.fst
      = (labels.enum.filter
          (fun e => partOfCluster (map_clusters_to_parts centersY meanY scaleY) e.2 = p)).map
            Prod.fst := by
    rw [List.filter_map, List.map_map]
    rfl
  rw [hitems]
  cases hl : prior.lookup p with
  | some old => rfl
  | none =>
    show _ = (labels.enum.foldl
        (fun s e => dictAppendCreate s
          (partOfCluster (map_clusters_to_parts centersY meanY scaleY) e.2) e.1)
        ([] : Segmentation)).lookup p
    rw [hfold ([] : Segmentation)]

/-- C7 counterexample: running the clustering segmenter after a geometric
run on the same instance mixes the two mappings — the result differs from
the clustering segmenter alone on a fresh instance. -/
theorem claim_segmenter_statefulness_counterexample :
    geometric_segmentation (⟨0, 0, 0⟩ :: (List.replicate 10 ⟨0, 3/5, 0⟩) ++ [⟨0, 1, 0⟩])
      = .ok [("body", [1, 2, 3, 4, 5, 6, 7, 8, 9, 10, 0, 11])]
    ∧ cluster_based_segmentation [("body", [1, 2, 3, 4, 5, 6, 7, 8, 9, 10, 0, 11])]
        [0, 1] 0 1 (List.replicate 12 0)
      ≠ cluster_based_segmentation [] [0, 1] 0 1 (List.replicate 12 0) := by
  constructor
  · norm_num +decide [geometric_segmentation, normalize_mesh, qmean, qsum, qmin, qmax,
      post_process_segmentation, runLoop, loopItems, initSeg, dictListAppend,
      assigned_part, closest_part, bandMatches, is_valid_for_part, normHeight,
      height_ranges, leF, leF', ltF, ltF', ltO, distTo, midpt, List.replicate,
      List.enum, List.enumFrom, List.zip, List.zipWith, List.range, List.range.loop,
      List.foldl, List.filter, List.lookup, List.find?, beqString,
      abs_of_nonneg, abs_of_nonpos]
  · norm_num +decide [cluster_based_segmentation, clusterAssign, dictAppendCreate,
      dictListAppend, partOfCluster, map_clusters_to_parts, clusterToPart,
      centersOriginalY, inverse_transform, argsortAsc, body_parts,
      List.insertionSort, List.orderedInsert, List.range_succ, List.replicate,
      List.enum, List.enumFrom, List.foldl, List.lookup, List.contains, List.elem,
      List.getD, List.getElem?_cons, beqString]

/-! ## Transfer segmenter -/

theorem foldl_min_le (t : List ℚ) : ∀ (a : ℚ), t.foldl min a ≤ a ∧ ∀ x ∈ t, t.foldl min a ≤ x := by
  induction t with
  | nil => intro a; exact ⟨le_refl a, by simp⟩
  | cons b t2 ih =>
    intro a
    obtain ⟨h1, h2⟩ := ih (min a b)
    refine ⟨le_trans h1 (min_le_left a b), ?_⟩
    intro x hx
    rcases List.mem_cons.mp hx with rfl | hx2
    · exact le_trans h1 (min_le_right a x)
    · exact h2 x hx2

theorem foldl_min_mem (t : List ℚ) : ∀ (a : ℚ), t.foldl min a = a ∨ t.foldl min a ∈ t := by
  induction t with
  | nil => intro a; exact Or.inl rfl
  | cons b t2 ih =>
    intro a
    rcases ih (min a b) with h | h
    · rcases min_choice a b with hab | hab
      · exact Or.inl (by rw [List.foldl_cons, h, hab])
      · exact Or.inr (by rw [List.foldl_cons, h, hab]; exact List.mem_cons_self b t2)
    · exact Or.inr (List.mem_cons.mpr (Or.inr h))

theorem qmin_le (a : ℚ) (t : List ℚ) : ∀ x ∈ a :: t, qmin (a :: t) ≤ x := by
  intro x hx
  rcases List.mem_cons.mp hx with rfl | hx2
  · exact (foldl_min_le t x).1
  · exact (foldl_min_le t a).2 x hx2

theorem qmin_mem (a : ℚ) (t : List ℚ) : qmin (a :: t) ∈ a :: t := by
  rcases foldl_min_mem t a with h | h
  · show t.foldl min a ∈ a :: t
    rw [h]
    exact List.mem_cons_self a t
  · show t.foldl min a ∈ a :: t
    exact List.mem_cons.mpr (Or.inr h)

/-- `np.argmin` on a list with a unique zero entry, all other entries
positive, returns that entry's index. -/
theorem argminIdx_unique_zero :
    ∀ (ds : List ℚ) (i : ℕ) (hi : i < ds.length),
      ds.get ⟨i, hi⟩ = 0 → (∀ j (hj : j < ds.length), j ≠ i → 0 < ds.get ⟨j, hj⟩) →
      argminIdx ds = i := by
  intro ds
  induction ds with
  | nil => intro i hi; exact absurd hi (Nat.not_lt_zero i)
  | cons d rest ihd =>
    intro i hi hzero hpos
    cases rest with
    | nil =>
      have hi0 : i = 0 := by
        simp only [List.length_cons, List.length_nil] at hi
        omega
      subst hi0
      rfl
    | cons d2 t =>
      show (if d ≤ qmin (d2 :: t) then 0 else argminIdx (d2 :: t) + 1) = i
      cases i with
      | zero =>
        rw [if_pos]
        have hd0 : d = 0 := hzero
        rcases List.mem_cons.mp (qmin_mem d2 t) with hm | hm
        · have := hpos 1 (by simp only [List.length_cons]; omega) (by simp)
          simp only [List.get] at this
          rw [hd0, hm]
          exact le_of_lt this
        · rcases List.mem_iff_get.mp hm with ⟨⟨j, hj⟩, hgj⟩
          have := hpos (j + 2) (by simp only [List.length_cons] at hj ⊢; omega) (by simp)
          simp only [List.get] at this hgj
          rw [hd0, ← hgj]
          exact le_of_lt this
      | succ j =>
        rw [if_neg]
        · have hj : j < (d2 :: t).length := Nat.lt_of_succ_lt_succ hi
          have hz : (d2 :: t).get ⟨j, hj⟩ = 0 := hzero
          have hp : ∀ j2 (hj2 : j2 < (d2 :: t).length), j2 ≠ j → 0 < (d2 :: t).get ⟨j2, hj2⟩ := by
            intro j2 hj2 hne
            have := hpos (j2 + 1) (Nat.succ_lt_succ hj2) (by omega)
            exact this
          rw [ihd j hj hz hp]
        · intro hle
          have hd : 0 < d := hpos 0 (by simp) (by omega)
          have hq : qmin (d2 :: t) ≤ 0 := by
            have := qmin_le d2 t ((d2 :: t).get ⟨j, Nat.lt_of_succ_lt_succ hi⟩)
              (List.get_mem (d2 :: t) _ _)
            rw [show (d2 :: t).get ⟨j, Nat.lt_of_succ_lt_succ hi⟩ = 0 from hzero] at this
            exact this
          exact absurd (lt_of_lt_of_le hd (le_trans hle hq)) (lt_irrefl 0)

theorem sqDist_nonneg (a b : Vec3) : 0 ≤ sqDist a b := by
  unfold sqDist
  positivity

theorem sqDist_self (a : Vec3) : sqDist a a = 0 := by
  simp [sqDist]

theorem sqDist_pos_of_ne {a b : Vec3} (h : a ≠ b) : 0 < sqDist a b := by
  rcases lt_or_eq_of_le (sqDist_nonneg a b) with hlt | heq
  · exact hlt
  · exfalso
    apply h
    unfold sqDist at heq
    have hx : a.x - b.x = 0 := by nlinarith [sq_nonneg (a.x - b.x), sq_nonneg (a.y - b.y), sq_nonneg (a.z - b.z)]
    have hy : a.y - b.y = 0 := by nlinarith [sq_nonneg (a.x - b.x), sq_nonneg (a.y - b.y), sq_nonneg (a.z - b.z)]
    have hz : a.z - b.z = 0 := by nlinarith [sq_nonneg (a.x - b.x), sq_nonneg (a.y - b.y), sq_nonneg (a.z - b.z)]
    cases a
    cases b
    simp only [Vec3.mk.injEq]
    constructor
    · linarith [hx]
    constructor
    · linarith [hy]
    · linarith [hz]

/-- On identical target and reference meshes with pairwise-distinct vertex
positions, the nearest-reference-vertex map is the identity. -/
theorem closestIndices_self (ref : List Vec3)
    (hdist : ∀ i j (hi : i < ref.length) (hj : j < ref.length),
        ref.get ⟨i, hi⟩ = ref.get ⟨j, hj⟩ → i = j) :
    ∀ i, i < ref.length → (closestIndices ref ref)[i]? = some i := by
  intro i hi
  unfold closestIndices
  rw [List.getElem?_map, List.getElem?_eq_getElem hi]
  have hlen : (ref.map (sqDist ref[i])).length = ref.length := List.length_map _ _
  have harg : argminIdx (ref.map (sqDist ref[i])) = i := by
    apply argminIdx_unique_zero _ i (by rw [hlen]; exact hi)
    · rw [List.get_map]
      exact sqDist_self _
    · intro j hj hne
      rw [List.get_map]
      apply sqDist_pos_of_ne
      intro heq
      exact hne (hdist j i (by rwa [hlen] at hj) hi (by simpa using heq.symm))
  simp [harg]

/-- Folding dict assignments whose keys are fresh and distinct appends the
new entries in order. -/
theorem foldSet_fresh (g : String × List ℕ → List ℕ) :
    ∀ (entries : List (String × List ℕ)) (s : Segmentation),
      (∀ k ∈ entries.map Prod.fst, ¬ k ∈ s.map Prod.fst) →
      (entries.map Prod.fst).Nodup →
      entries.foldl (fun s2 e => dictSet s2 e.1 (g e)) s
        = s ++ entries.map (fun e => (e.1, g e)) := by
  intro entries
  induction entries with
  | nil => intro s _ _; simp
  | cons e t ih =>
    intro s hfresh hnd
    have hnotmem : ¬ e.1 ∈ s.map Prod.fst := hfresh e.1 (by simp)
    have hcont : (s.map Prod.fst).contains e.1 = false := by
      cases hc : (s.map Prod.fst).contains e.1 with
      | false => rfl
      | true => exact absurd (by simpa using hc) hnotmem
    have hstep : dictSet s e.1 (g e) = s ++ [(e.1, g e)] := by
      unfold dictSet
      rw [hcont]
      simp
    rw [List.foldl_cons, hstep, ih (s ++ [(e.1, g e)]) ?_ ?_]
    · simp
    · intro k hk
      simp only [List.map_append, List.mem_append, List.map_cons, List.map_nil,
        List.mem_singleton]
      rintro (hks | hke)
      · exact hfresh k (by simp [hk]) hks
      · have : e.1 ∈ t.map Prod.fst := hke ▸ hk
        exact (List.nodup_cons.mp (by simpa using hnd)).1 this
    · exact (List.nodup_cons.mp (by simpa using hnd)).2

/-- Looking up in an association list whose values were rewritten
entry-by-entry (keys unchanged). -/
theorem lookup_map_values (g : List ℕ → List ℕ) :
    ∀ (l : Segmentation) (p : String),
      (l.map (fun e => (e.1, g e.2))).lookup p = (l.lookup p).map g := by
  intro l
  induction l with
  | nil => intro p; rfl
  | cons e t ih =>
    intro p
    obtain ⟨ek, ev⟩ := e
    cases hke : (p == ek) with
    | true => simp [List.lookup_cons, hke]
    | false => simp [List.lookup_cons, hke, ih]

theorem mem_of_lookup_eq_some {l : Segmentation} {p : String} {v : List ℕ}
    (h : l.lookup p = some v) : (p, v) ∈ l := by
  induction l with
  | nil => simp at h
  | cons e t ih =>
    obtain ⟨ek, ev⟩ := e
    rw [List.lookup_cons] at h
    cases hke : (p == ek) with
    | true =>
      rw [hke] at h
      have hpe : p = ek := by simpa using hke
      have hv : ev = v := by simpa using h
      rw [hpe, hv]
      exact List.mem_cons_self _ _
    | false =>
      rw [hke] at h
      exact List.mem_cons.mpr (Or.inr (ih h))

/-- Membership in a transferred label list: exactly the target indices whose
nearest reference vertex lies in the label's reference index list. -/
theorem mem_transferList {ci : List ℕ} {l : List ℕ} {i : ℕ} :
    i ∈ transferList ci l ↔ ∃ c, ci[i]? = some c ∧ c ∈ l := by
  unfold transferList
  constructor
  · intro hm
    rcases List.mem_map.mp hm with ⟨pr, hpr, rfl⟩
    have h1 := List.mem_filter.mp hpr
    have h2 : ci[pr.1]? = some pr.2 := List.mem_enum_iff_getElem?.mp h1.1
    exact ⟨pr.2, h2, by simpa using h1.2⟩
  · rintro ⟨c, hc, hcl⟩
    apply List.mem_map.mpr
    refine ⟨(i, c), ?_, rfl⟩
    apply List.mem_filter.mpr
    exact ⟨List.mem_enum_iff_getElem?.mpr hc, by simpa using hcl⟩

/-- The transfer result on a fresh instance, with distinct reference labels:
each reference entry is rewritten to its transferred target list. -/
theorem transfer_eq_map (target ref : List Vec3) (refSeg : Segmentation)
    (hnd : (refSeg.map Prod.fst).Nodup) :
    transfer_segmentation [] target ref refSeg
      = refSeg.map (fun e => (e.1, transferList (closestIndices target ref) e.2)) := by
  unfold transfer_segmentation
  rw [foldSet_fresh _ refSeg [] (by simp) hnd]
  simp

/-- C8: transfer identity law.  When the target mesh equals the reference
mesh vertex-for-vertex, the vertex positions are pairwise distinct, and the
reference segmentation (with distinct labels and in-range indices) covers
every reference vertex, the transferred segmentation has the same labels
with the same index sets as the reference segmentation. -/
theorem claim_transfer_identity (ref : List Vec3) (refSeg : Segmentation)
    (hdist : ∀ i j (hi : i < ref.length) (hj : j < ref.length),
        ref.get ⟨i, hi⟩ = ref.get ⟨j, hj⟩ → i = j)
    (hnd : (refSeg.map Prod.fst).Nodup)
    (hrange : ∀ e ∈ refSeg, ∀ k ∈ e.2, k < ref.length)
    (hcover : ∀ j, j < ref.length → ∃ e ∈ refSeg, j ∈ e.2) :
    (transfer_segmentation [] ref ref refSeg).map Prod.fst = refSeg.map Prod.fst
    ∧ ∀ (p : String) (i : ℕ),
        i ∈ ((transfer_segmentation [] ref ref refSeg).lookup p).getD []
          ↔ i ∈ (refSeg.lookup p).getD [] := by
  have hmapform := transfer_eq_map ref ref refSeg hnd
  constructor
  · rw [hmapform, List.map_map]
    rfl
  · intro p i
    rw [hmapform, lookup_map_values (transferList (closestIndices ref ref)) refSeg p]
    cases hl : refSeg.lookup p with
    | none => simp
    | some l =>
      simp only [Option.map_some', Option.getD_some]
      rw [mem_transferList]
      have hlen : (closestIndices ref ref).length = ref.length := List.length_map _ _
      constructor
      · rintro ⟨c, hc, hcl⟩
        by_cases hi : i < ref.length
        · rw [closestIndices_self ref hdist i hi] at hc
          have : i = c := by simpa using hc
          rwa [this]
        · have hn : (closestIndices ref ref)[i]? = none :=
            List.getElem?_eq_none (by rw [hlen]; omega)
          rw [hn] at hc
          exact absurd hc (by simp)
      · intro hil
        have hi : i < ref.length :=
          hrange (p, l) (mem_of_lookup_eq_some hl) i hil
        exact ⟨i, closestIndices_self ref hdist i hi, hil⟩

theorem claim_transfer_identity_witness :
    (transfer_segmentation [] [⟨0, 0, 0⟩, ⟨1, 0, 0⟩] [⟨0, 0, 0⟩, ⟨1, 0, 0⟩]
        [("a", [0]), ("b", [1])]).map Prod.fst = ["a", "b"]
    ∧ (1 ∈ ((transfer_segmentation [] [⟨0, 0, 0⟩, ⟨1, 0, 0⟩] [⟨0, 0, 0⟩, ⟨1, 0, 0⟩]
        [("a", [0]), ("b", [1])]).lookup "b").getD []) := by
  have hdist : ∀ i j (hi : i < ([⟨0, 0, 0⟩, ⟨1, 0, 0⟩] : List Vec3).length)
      (hj : j < ([⟨0, 0, 0⟩, ⟨1, 0, 0⟩] : List Vec3).length),
      ([⟨0, 0, 0⟩, ⟨1, 0, 0⟩] : List Vec3).get ⟨i, hi⟩
        = ([⟨0, 0, 0⟩, ⟨1, 0, 0⟩] : List Vec3).get ⟨j, hj⟩ → i = j := by
    intro i j hi hj h
    simp only [List.length_cons, List.length_nil] at hi hj
    interval_cases i <;> interval_cases j <;> first
      | rfl
      | (exfalso; simp only [List.get] at h; rw [Vec3.mk.injEq] at h; norm_num at h)
  have h := claim_transfer_identity [⟨0, 0, 0⟩, ⟨1, 0, 0⟩] [("a", [0]), ("b", [1])]
    hdist (by decide)
    (by
      intro e he k hk
      simp only [List.mem_cons, List.not_mem_nil, or_false] at he
      simp only [List.length_cons, List.length_nil]
      rcases he with rfl | rfl <;> simp only [List.mem_cons, List.not_mem_nil, or_false] at hk <;> omega)
    (by
      intro j hj
      simp only [List.length_cons, List.length_nil] at hj
      interval_cases j
      · exact ⟨("a", [0]), by simp⟩
      · exact ⟨("b", [1]), by simp⟩)
  refine ⟨h.1.trans (by decide), ?_⟩
  exact (h.2 "b" 1).mpr (by decide)

/-- C9 (amended): when a target vertex's nearest reference vertex belongs to
no reference label, the call still completes (the function is total) but
that vertex is silently absent from every output label's list — there is no
unassigned bucket, warning, or reported count in the returned mapping. -/
theorem claim_transfer_unassigned (target ref : List Vec3) (refSeg : Segmentation)
    (hnd : (refSeg.map Prod.fst).Nodup) (i : ℕ)
    (hnone : ∀ e ∈ refSeg, ∀ c, (closestIndices target ref)[i]? = some c → c ∉ e.2) :
    ∀ e ∈ transfer_segmentation [] target ref refSeg, i ∉ e.2 := by
  intro e he
  rw [transfer_eq_map target ref refSeg hnd] at he
  rcases List.mem_map.mp he with ⟨e0, he0, rfl⟩
  intro hmem
  rcases mem_transferList.mp hmem with ⟨c, hc, hcl⟩
  exact hnone e0 he0 c hc hcl

/-- C9 counterexample: a reference segmentation covering no reference vertex
produces a result in which the (valid) target vertex 0 appears under no
label; nothing in the returned mapping records it. -/
theorem claim_transfer_unassigned_counterexample :
    transfer_segmentation [] [⟨0, 0, 0⟩] [⟨0, 0, 0⟩] [("a", [])] = [("a", [])]
    ∧ ∀ e ∈ transfer_segmentation [] [⟨0, 0, 0⟩] [⟨0, 0, 0⟩] [("a", [])], 0 ∉ e.2 := by
  have hres : transfer_segmentation [] [⟨0, 0, 0⟩] [⟨0, 0, 0⟩] [("a", [])] = [("a", [])] := by
    norm_num +decide [transfer_segmentation, transferList, dictSet, closestIndices,
      argminIdx, sqDist, qmin, List.enum, List.enumFrom, List.filter, List.foldl,
      List.contains, List.elem, beqString]
  refine ⟨hres, ?_⟩
  rw [hres]
  intro e he
  simp only [List.mem_singleton] at he
  subst he
  simp

theorem claim_transfer_unassigned_witness :
    0 ∉ ((transfer_segmentation [] [⟨0, 0, 0⟩] [⟨0, 0, 0⟩] [("a", [])]).lookup "a").getD [] := by
  have happ := claim_transfer_unassigned [⟨0, 0, 0⟩] [⟨0, 0, 0⟩] [("a", [])] (by decide) 0
    (by
      intro e he c hc
      simp only [List.mem_singleton] at he
      subst he
      simp)
  intro hmem
  cases hlk : (transfer_segmentation [] [⟨0, 0, 0⟩] [⟨0, 0, 0⟩] [("a", [])]).lookup "a" with
  | none =>
    rw [hlk] at hmem
    simp at hmem
  | some l =>
    rw [hlk] at hmem
    exact happ ("a", l) (mem_of_lookup_eq_some hlk) (by simpa using hmem)

/-- C10 (amended): when the nearest reference index of a target vertex lies
in several reference labels' sets, the target vertex is assigned to EVERY
such label (the loop rebuilds each label's list independently), not to
exactly one: membership in an output label is equivalent to the nearest
reference index belonging to that label's reference set. -/
theorem claim_transfer_overlap (target ref : List Vec3) (refSeg : Segmentation)
    (hnd : (refSeg.map Prod.fst).Nodup) (p : String) (i : ℕ) :
    i ∈ ((transfer_segmentation [] target ref refSeg).lookup p).getD []
      ↔ ∃ c, (closestIndices target ref)[i]? = some c
          ∧ c ∈ (refSeg.lookup p).getD [] := by
  rw [transfer_eq_map target ref refSeg hnd,
    lookup_map_values (transferList (closestIndices target ref)) refSeg p]
  cases hl : refSeg.lookup p with
  | none => simp
  | some l =>
    simp only [Option.map_some', Option.getD_some]
    exact mem_transferList

/-- C10 counterexample: with reference vertex 0 claimed by both labels, the
single target vertex is assigned to both, not to exactly the first one. -/
theorem claim_transfer_overlap_counterexample :
    transfer_segmentation [] [⟨0, 0, 0⟩] [⟨0, 0, 0⟩] [("a", [0]), ("b", [0])]
      = [("a", [0]), ("b", [0])] := by
  norm_num +decide [transfer_segmentation, transferList, dictSet, closestIndices,
    argminIdx, sqDist, qmin, List.enum, List.enumFrom, List.filter, List.foldl,
    List.contains, List.elem, beqString]

theorem claim_transfer_overlap_witness :
    0 ∈ ((transfer_segmentation [] [⟨0, 0, 0⟩] [⟨0, 0, 0⟩]
        [("a", [0]), ("b", [0])]).lookup "b").getD [] := by
  apply (claim_transfer_overlap [⟨0, 0, 0⟩] [⟨0, 0, 0⟩] [("a", [0]), ("b", [0])]
    (by decide) "b" 0).mpr
  refine ⟨0, ?_, by decide⟩
  norm_num [closestIndices, argminIdx, sqDist, qmin]

/-! ## Post-processing: small-region merge -/

/-- Looking up after overwriting the value of one key in place. -/
theorem lookup_map_setval (w : List ℕ) (k : String) :
    ∀ (s : Segmentation) (p : String),
      ((s.map (fun e => if e.1 = k then (e.1, w) else e)).lookup p)
        = if p = k then (s.lookup p).map (fun _ => w) else s.lookup p := by
  intro s
  induction s with
  | nil =>
    intro p
    by_cases hp : p = k <;> simp [hp]
  | cons e t ih =>
    intro p
    obtain ⟨ek, ev⟩ := e
    by_cases hpe : p = ek
    · have hbeq : (p == ek) = true := by rw [beqString]; simp [hpe]
      by_cases hek : ek = k
      · have hpk : p = k := hpe.trans hek
        simp [List.map_cons, hek, List.lookup_cons, hbeq, hpk]
      · have hpk : ¬ (p = k) := fun hh => hek (hpe ▸ hh)
        simp [List.map_cons, hek, List.lookup_cons, hbeq, hpk]
    · have hbeq : (p == ek) = false := by rw [beqString]; simp [hpe]
      by_cases hek : ek = k
      · simp only [List.map_cons, if_pos hek, List.lookup_cons, hbeq]
        exact ih p
      · simp only [List.map_cons, if_neg hek, List.lookup_cons, hbeq]
        exact ih p

/-- `_post_process_segmentation` when some index is unassigned and `body`
survived the small-part deletion: the unassigned indices are appended to
`body`'s list. -/
theorem post_process_extend (s : Segmentation) (n : ℕ) (lb : List ℕ)
    (hne : ((List.range n).filter
        (fun j => !(s.filter (fun e => 10 ≤ e.2.length)).any
          (fun e => e.2.contains j))).isEmpty = false)
    (hlb : (s.filter (fun e => 10 ≤ e.2.length)).lookup "body" = some lb) :
    post_process_segmentation s n
      = .ok ((s.filter (fun e => 10 ≤ e.2.length)).map
          (fun e => if e.1 = "body"
            then (e.1, lb ++ (List.range n).filter
              (fun j => !(s.filter (fun e2 => 10 ≤ e2.2.length)).any
                (fun e2 => e2.2.contains j)))
            else e)) := by
  unfold post_process_segmentation
  simp only [hne, Bool.false_eq_true, if_false, hlb]

/-- `_post_process_segmentation` when every index is assigned after the
small-part deletion: the filtered segmentation is returned unchanged. -/
theorem post_process_keep (s : Segmentation) (n : ℕ)
    (hemp : ((List.range n).filter
        (fun j => !(s.filter (fun e => 10 ≤ e.2.length)).any
          (fun e => e.2.contains j))).isEmpty = true) :
    post_process_segmentation s n = .ok (s.filter (fun e => 10 ≤ e.2.length)) := by
  unfold post_process_segmentation
  simp only [hemp, if_true]

/-- `_post_process_segmentation` when some index is unassigned but `body`
itself was deleted as too small: the Python code raises KeyError. -/
theorem post_process_keyerror (s : Segmentation) (n : ℕ)
    (hne : ((List.range n).filter
        (fun j => !(s.filter (fun e => 10 ≤ e.2.length)).any
          (fun e => e.2.contains j))).isEmpty = false)
    (hlb : (s.filter (fun e => 10 ≤ e.2.length)).lookup "body" = none) :
    post_process_segmentation s n = .error "KeyError: body" := by
  unfold post_process_segmentation
  simp only [hne, Bool.false_eq_true, if_false, hlb]

/-- C5 (amended): after post-processing, a label whose vertex set is below
10 is deleted and its members appear under `body` — provided `body` itself
keeps at least 10 vertices (the code never creates a missing `body`; when
`body` was deleted too, the call raises KeyError instead, see the
counterexample). -/
theorem claim_small_region_merge (s : Segmentation) (n : ℕ) (p : String)
    (lp : List ℕ) (i : ℕ)
    (hnd : (s.map Prod.fst).Nodup)
    (hbody : ∃ lb, s.lookup "body" = some lb ∧ 10 ≤ lb.length)
    (hp : (p, lp) ∈ s) (hsmall : lp.length < 10) (hi : i ∈ lp) (hin : i < n)
    (hbig : ∀ e ∈ s, 10 ≤ e.2.length → i ∉ e.2) :
    ∃ T, post_process_segmentation s n = .ok T
      ∧ T.lookup p = none
      ∧ ∃ lb2, T.lookup "body" = some lb2 ∧ i ∈ lb2 := by
  obtain ⟨lb, hlb, hlbBig⟩ := hbody
  have hs1sub : (s.filter (fun e => 10 ≤ e.2.length)).Sublist s := List.filter_sublist s
  have hnd1 : ((s.filter (fun e => 10 ≤ e.2.length)).map Prod.fst).Nodup :=
    hnd.sublist (hs1sub.map Prod.fst)
  have hbodyMem : ("body", lb) ∈ s.filter (fun e => 10 ≤ e.2.length) :=
    List.mem_filter.mpr ⟨mem_of_lookup_eq_some hlb, by simpa using hlbBig⟩
  have hlb1 : (s.filter (fun e => 10 ≤ e.2.length)).lookup "body" = some lb :=
    lookup_of_mem_nodup _ hnd1 _ _ hbodyMem
  have hlp1 : (s.filter (fun e => 10 ≤ e.2.length)).lookup p = none := by
    cases hcase : (s.filter (fun e => 10 ≤ e.2.length)).lookup p with
    | none => rfl
    | some v =>
      exfalso
      have hv := mem_of_lookup_eq_some hcase
      have hvs : (p, v) ∈ s := hs1sub.subset hv
      have hlen : (10 : ℕ) ≤ v.length := by simpa using (List.mem_filter.mp hv).2
      have h1 := lookup_of_mem_nodup s hnd p v hvs
      have h2 := lookup_of_mem_nodup s hnd p lp hp
      rw [h1] at h2
      have : v = lp := Option.some_inj.mp h2
      rw [this] at hlen
      omega
  have hpbody : ¬ (p = "body") := by
    intro hh
    rw [hh, hlb1] at hlp1
    exact Option.some_ne_none lb hlp1
  have hiu : i ∈ (List.range n).filter
      (fun j => !(s.filter (fun e => 10 ≤ e.2.length)).any (fun e => e.2.contains j)) := by
    apply List.mem_filter.mpr
    refine ⟨List.mem_range.mpr hin, ?_⟩
    simp only [Bool.not_eq_true', List.any_eq_false]
    intro e he
    have hes : e ∈ s := hs1sub.subset he
    have hbigE : (10 : ℕ) ≤ e.2.length := by simpa using (List.mem_filter.mp he).2
    have := hbig e hes hbigE
    simpa using this
  have hune : ((List.range n).filter
      (fun j => !(s.filter (fun e => 10 ≤ e.2.length)).any
        (fun e => e.2.contains j))).isEmpty = false := by
    rw [List.isEmpty_eq_false]
    exact List.ne_nil_of_mem hiu
  refine ⟨_, post_process_extend s n lb hune hlb1, ?_, ?_⟩
  · rw [lookup_map_setval, if_neg hpbody]
    exact hlp1
  · refine ⟨lb ++ (List.range n).filter
        (fun j => !(s.filter (fun e2 => 10 ≤ e2.2.length)).any (fun e2 => e2.2.contains j)),
      ?_, ?_⟩
    · rw [lookup_map_setval, if_pos rfl, hlb1]
      rfl
    · exact List.mem_append.mpr (Or.inr hiu)

/-- C5 counterexample: a mesh on which the `body` band collects no vertices
while another band stays below the 10-vertex threshold.  Instead of creating
`body` and reassigning, the call dies with a KeyError and returns nothing:
10 vertices at (-1, 0) fill left_leg, 5 at (2, 0.6) fill right_arm (below
threshold), 1 at (0, 1) fills face_internal. -/
theorem claim_small_region_merge_counterexample :
    geometric_segmentation
      ((List.replicate 10 ⟨-1, 0, 0⟩) ++ (List.replicate 5 ⟨2, 3/5, 0⟩) ++ [⟨0, 1, 0⟩])
      = .error "KeyError: body" := by
  norm_num +decide [geometric_segmentation, normalize_mesh, qmean, qsum, qmin, qmax,
    post_process_segmentation, runLoop, loopItems, initSeg, dictListAppend,
    assigned_part, closest_part, bandMatches, is_valid_for_part, normHeight,
    height_ranges, leF, leF', ltF, ltF', ltO, distTo, midpt, List.replicate,
    List.enum, List.enumFrom, List.zip, List.zipWith, List.range, List.range.loop,
    List.foldl, List.filter, List.lookup, List.find?, beqString,
    abs_of_nonneg, abs_of_nonpos]

theorem claim_small_region_merge_witness :
    ∃ T, post_process_segmentation
        [("body", [0, 1, 2, 3, 4, 5, 6, 7, 8, 9]), ("face_internal", [10, 11, 12, 13, 14])]
        15 = .ok T
      ∧ T.lookup "face_internal" = none
      ∧ ∃ lb2, T.lookup "body" = some lb2 ∧ 10 ∈ lb2 := by
  apply claim_small_region_merge
    [("body", [0, 1, 2, 3, 4, 5, 6, 7, 8, 9]), ("face_internal", [10, 11, 12, 13, 14])]
    15 "face_internal" [10, 11, 12, 13, 14] 10
  · decide
  · exact ⟨[0, 1, 2, 3, 4, 5, 6, 7, 8, 9], by decide, by decide⟩
  · decide
  · decide
  · decide
  · decide
  · decide

/-! ## The partition invariant of geometric segmentation -/

theorem mem_filterKey {items : List (ℕ × String)} {p : String} {i : ℕ} :
    i ∈ (items.filter (fun it => it.2 = p)).map Prod.fst ↔ (i, p) ∈ items := by
  constructor
  · intro hm
    rcases List.mem_map.mp hm with ⟨it, hit, rfl⟩
    have h1 := List.mem_filter.mp hit
    have h2 : it.2 = p := by simpa using h1.2
    have h3 : it = (it.1, p) := by
      rw [← h2]
    rw [← h3]
    exact h1.1
  · intro hm
    exact List.mem_map.mpr ⟨(i, p), List.mem_filter.mpr ⟨hm, by simp⟩, rfl⟩

theorem mem_loopItems_lt {vs : List Vec3} {hs : List (Option ℚ)} {i : ℕ} {p : String}
    (hm : (i, p) ∈ loopItems vs hs) : i < vs.length := by
  rcases mem_loopItems.mp hm with ⟨v, h, h1, _, _⟩
  rcases List.getElem?_eq_some.mp h1 with ⟨hv, _⟩
  exact hv

theorem mem_loopItems_part {vs : List Vec3} {hs : List (Option ℚ)}
    (hlen : hs.length = vs.length) {i : ℕ} (hi : i < vs.length) {p : String} :
    ((i, p) ∈ loopItems vs hs
      ↔ p = assigned_part (vs.get ⟨i, hi⟩).x (hs.get ⟨i, hlen ▸ hi⟩)) := by
  rw [mem_loopItems]
  constructor
  · rintro ⟨v, h, h1, h2, rfl⟩
    rcases List.getElem?_eq_some.mp h1 with ⟨hv1, hv2⟩
    rcases List.getElem?_eq_some.mp h2 with ⟨hh1, hh2⟩
    rw [← hv2, ← hh2]
    rfl
  · rintro rfl
    exact ⟨vs.get ⟨i, hi⟩, hs.get ⟨i, hlen ▸ hi⟩,
      List.getElem?_eq_getElem hi, List.getElem?_eq_getElem (hlen ▸ hi), rfl⟩

/-- Each of the six distinct part names is the key of exactly one entry. -/
theorem countP_partNames (P : String) (hP : P ∈ partNames) :
    height_ranges.countP (fun b => decide (b.1 = P)) = 1 := by
  simp only [partNames, height_ranges, List.map_cons, List.map_nil, List.mem_cons,
    List.not_mem_nil, or_false] at hP
  rcases hP with rfl | rfl | rfl | rfl | rfl | rfl <;> decide

/-- The assignment loop's result is a partition of `[0, N)`: every index
below `N` lies in exactly one part's list, and no index `≥ N` appears. -/
theorem runLoop_countP (vs : List Vec3) (hs : List (Option ℚ))
    (hlen : hs.length = vs.length) (i : ℕ) :
    (runLoop (loopItems vs hs) initSeg).countP (fun e => e.2.contains i)
      = if i < vs.length then 1 else 0 := by
  rw [runLoop_initSeg, List.countP_map]
  by_cases hi : i < vs.length
  · rw [if_pos hi]
    have hcongr : ∀ b ∈ height_ranges,
        ((fun e : String × List ℕ => e.2.contains i) ∘
          (fun b => (b.1, ((loopItems vs hs).filter (fun it => it.2 = b.1)).map Prod.fst))) b = true
        ↔ (fun b : String × ℚ × ℚ =>
            decide (b.1 = assigned_part (vs.get ⟨i, hi⟩).x (hs.get ⟨i, hlen ▸ hi⟩))) b = true := by
      intro b _
      simp only [Function.comp_apply, decide_eq_true_eq]
      constructor
      · intro hc
        have hmem : i ∈ ((loopItems vs hs).filter (fun it => it.2 = b.1)).map Prod.fst := by
          simpa using hc
        have := mem_filterKey.mp hmem
        exact (mem_loopItems_part hlen hi).mp this
      · intro hb
        have : (i, b.1) ∈ loopItems vs hs := (mem_loopItems_part hlen hi).mpr hb
        have hmem := mem_filterKey.mpr this
        simpa using hmem
    rw [List.countP_congr hcongr]
    exact countP_partNames _ (assigned_part_mem_partNames _ _)
  · rw [if_neg hi]
    apply List.countP_eq_zero.mpr
    intro b _
    simp only [Function.comp_apply]
    intro hc
    have hmem : i ∈ ((loopItems vs hs).filter (fun it => it.2 = b.1)).map Prod.fst := by
      simpa using hc
    exact hi (mem_loopItems_lt (mem_filterKey.mp hmem))

/-- Counting containment after extending `body`'s list in place. -/
theorem countP_extendBody (u : List ℕ) (i : ℕ) :
    ∀ (s1 : Segmentation) (lb : List ℕ),
      (s1.map Prod.fst).Nodup → s1.lookup "body" = some lb →
      (s1.map (fun e => if e.1 = "body" then (e.1, lb ++ u) else e)).countP
          (fun e => e.2.contains i)
        + (if lb.contains i then 1 else 0)
      = s1.countP (fun e => e.2.contains i) + (if (lb ++ u).contains i then 1 else 0) := by
  intro s1
  induction s1 with
  | nil =>
    intro lb _ h
    simp at h
  | cons e t ih =>
    intro lb hnd hl
    obtain ⟨ek, ev⟩ := e
    by_cases hek : ek = "body"
    · subst hek
      have hbeq : (("body" : String) == "body") = true := by simp
      rw [List.lookup_cons] at hl
      rw [hbeq] at hl
      have hev : ev = lb := by simpa using hl
      subst hev
      have hnd2 : ("body" : String) ∉ t.map Prod.fst ∧ (t.map Prod.fst).Nodup := by
        rw [List.map_cons] at hnd
        exact List.nodup_cons.mp hnd
      have htid : t.map (fun e2 => if e2.1 = "body" then (e2.1, ev ++ u) else e2) = t := by
        have hcg : ∀ e2 ∈ t,
            (fun e3 : String × List ℕ => if e3.1 = "body" then (e3.1, ev ++ u) else e3) e2
              = id e2 := by
          intro e2 he2
          have hmm : e2.1 ∈ t.map Prod.fst := List.mem_map_of_mem Prod.fst he2
          have : ¬ (e2.1 = "body") := by
            intro hh
            rw [hh] at hmm
            exact hnd2.1 hmm
          simp [this]
        rw [List.map_congr_left hcg, List.map_id]
      rw [List.map_cons, htid]
      have hhead : (if (("body", ev) : String × List ℕ).1 = "body"
          then ((("body", ev) : String × List ℕ).1, ev ++ u)
          else (("body", ev) : String × List ℕ))
          = (("body", ev ++ u) : String × List ℕ) := by simp
      rw [hhead, List.countP_cons, List.countP_cons]
      have hred1 : ((("body", ev) : String × List ℕ)).2 = ev := rfl
      have hred2 : ((("body", ev ++ u) : String × List ℕ)).2 = ev ++ u := rfl
      rw [hred1, hred2]
      omega
    · rw [List.lookup_cons] at hl
      have hbeq : (("body" : String) == ek) = false := by
        rw [beqString]
        simp
        exact fun hh => hek hh.symm
      rw [hbeq] at hl
      rw [List.map_cons] at hnd
      have hnd2 := List.nodup_cons.mp hnd
      have := ih lb hnd2.2 hl
      simp only [List.map_cons, if_neg hek, List.countP_cons]
      omega

/-- Post-processing preserves the partition property: when it returns, every
index below `N` still lies in exactly one label's list and no other index
appears. -/
theorem post_process_partition (s : Segmentation) (n : ℕ) (T : Segmentation)
    (hnd : (s.map Prod.fst).Nodup)
    (hok : post_process_segmentation s n = .ok T)
    (hpart : ∀ i, s.countP (fun e => e.2.contains i) = if i < n then 1 else 0) :
    ∀ i, T.countP (fun e => e.2.contains i) = if i < n then 1 else 0 := by
  intro i
  have hsub : (s.filter (fun e => 10 ≤ e.2.length)).Sublist s := List.filter_sublist s
  have hle : (s.filter (fun e => 10 ≤ e.2.length)).countP (fun e => e.2.contains i)
      ≤ s.countP (fun e => e.2.contains i) := hsub.countP_le _
  cases hemp : ((List.range n).filter
      (fun j => !(s.filter (fun e => 10 ≤ e.2.length)).any (fun e => e.2.contains j))).isEmpty with
  | true =>
    rw [post_process_keep s n hemp] at hok
    have hT : s.filter (fun e => 10 ≤ e.2.length) = T := by
      simpa using hok
    subst hT
    by_cases hi : i < n
    · rw [if_pos hi]
      have hnil := List.isEmpty_iff.mp hemp
      have hall := List.filter_eq_nil_iff.mp hnil
      have hassigned : ∃ e ∈ s.filter (fun e => 10 ≤ e.2.length), e.2.contains i = true := by
        have h5 := hall i (List.mem_range.mpr hi)
        have h6 : (s.filter (fun e => 10 ≤ e.2.length)).any (fun e => e.2.contains i) = true := by
          cases hany : (s.filter (fun e => 10 ≤ e.2.length)).any (fun e => e.2.contains i) with
          | true => rfl
          | false => exact absurd (by rw [hany]; rfl) h5
        exact List.any_eq_true.mp h6
      have h1 : 0 < (s.filter (fun e => 10 ≤ e.2.length)).countP (fun e => e.2.contains i) :=
        List.countP_pos.mpr hassigned
      have h2 := hle
      rw [hpart i, if_pos hi] at h2
      omega
    · rw [if_neg hi]
      have h2 := hle
      rw [hpart i, if_neg hi] at h2
      omega
  | false =>
    cases hlk : (s.filter (fun e => 10 ≤ e.2.length)).lookup "body" with
    | none =>
      rw [post_process_keyerror s n hemp hlk] at hok
      cases hok
    | some lb =>
      rw [post_process_extend s n lb hemp hlk] at hok
      have hT : (s.filter (fun e => 10 ≤ e.2.length)).map
          (fun e => if e.1 = "body"
            then (e.1, lb ++ (List.range n).filter
              (fun j => !(s.filter (fun e2 => 10 ≤ e2.2.length)).any
                (fun e2 => e2.2.contains j)))
            else e) = T := by
        simpa using hok
      have hnd1 : ((s.filter (fun e => 10 ≤ e.2.length)).map Prod.fst).Nodup :=
        hnd.sublist (hsub.map Prod.fst)
      have hext := countP_extendBody
        ((List.range n).filter
          (fun j => !(s.filter (fun e2 => 10 ≤ e2.2.length)).any (fun e2 => e2.2.contains j)))
        i (s.filter (fun e => 10 ≤ e.2.length)) lb hnd1 hlk
      rw [hT] at hext
      have hbodyMem : ("body", lb) ∈ s.filter (fun e => 10 ≤ e.2.length) :=
        mem_of_lookup_eq_some hlk
      by_cases hass : ∃ e ∈ s.filter (fun e => 10 ≤ e.2.length), e.2.contains i = true
      · -- `i` is still assigned after the deletion pass
        have hi : i < n := by
          by_contra hc
          have h0 : s.countP (fun e => e.2.contains i) = 0 := by
            rw [hpart i, if_neg hc]
          have := List.countP_eq_zero.mp h0
          rcases hass with ⟨e, he, hce⟩
          exact absurd hce (this e (hsub.subset he))
        rw [if_pos hi]
        have h1 : 0 < (s.filter (fun e => 10 ≤ e.2.length)).countP (fun e => e.2.contains i) :=
          List.countP_pos.mpr hass
        have h2 := hle
        rw [hpart i, if_pos hi] at h2
        have hc1 : (s.filter (fun e => 10 ≤ e.2.length)).countP (fun e => e.2.contains i) = 1 := by
          omega
        have hnu : i ∉ (List.range n).filter
            (fun j => !(s.filter (fun e2 => 10 ≤ e2.2.length)).any (fun e2 => e2.2.contains j)) := by
          intro hmem
          have := (List.mem_filter.mp hmem).2
          simp only [Bool.not_eq_true', List.any_eq_false] at this
          rcases hass with ⟨e, he, hce⟩
          exact absurd hce (by simpa using this e he)
        have hcontEq : ((lb ++ (List.range n).filter
            (fun j => !(s.filter (fun e2 => 10 ≤ e2.2.length)).any
              (fun e2 => e2.2.contains j))).contains i) = lb.contains i := by
          cases hclb : lb.contains i with
          | true =>
            have : i ∈ lb := by simpa using hclb
            simp [List.mem_append, this]
          | false =>
            have h3 : i ∉ lb := by simpa using hclb
            have : i ∉ lb ++ (List.range n).filter
                (fun j => !(s.filter (fun e2 => 10 ≤ e2.2.length)).any
                  (fun e2 => e2.2.contains j)) := by
              rw [List.mem_append]
              rintro (h4 | h4)
              · exact h3 h4
              · exact hnu h4
            simpa using this
        rw [hcontEq, hc1] at hext
        omega
      · -- `i` lost its label (or never had one): it lands in `body` iff `i < n`
        have hc0 : (s.filter (fun e => 10 ≤ e.2.length)).countP (fun e => e.2.contains i) = 0 := by
          apply List.countP_eq_zero.mpr
          intro e he hce
          exact hass ⟨e, he, hce⟩
        have hlb0 : lb.contains i = false := by
          cases hclb : lb.contains i with
          | true => exact absurd ⟨("body", lb), hbodyMem, hclb⟩ hass
          | false => rfl
        by_cases hi : i < n
        · rw [if_pos hi]
          have hiu : i ∈ (List.range n).filter
              (fun j => !(s.filter (fun e2 => 10 ≤ e2.2.length)).any
                (fun e2 => e2.2.contains j)) := by
            apply List.mem_filter.mpr
            refine ⟨List.mem_range.mpr hi, ?_⟩
            simp only [Bool.not_eq_true', List.any_eq_false]
            intro e he
            exact fun hcc => hass ⟨e, he, hcc⟩

          have hcont : ((lb ++ (List.range n).filter
              (fun j => !(s.filter (fun e2 => 10 ≤ e2.2.length)).any
                (fun e2 => e2.2.contains j))).contains i) = true := by
            have hm : i ∈ lb ++ (List.range n).filter
                (fun j => !(s.filter (fun e2 => 10 ≤ e2.2.length)).any
                  (fun e2 => e2.2.contains j)) := List.mem_append.mpr (Or.inr hiu)
            simpa using hm
          rw [hcont, hlb0, hc0] at hext
          simp only [if_true, if_false, Bool.false_eq_true, Nat.add_zero, Nat.zero_add] at hext
          exact hext
        · rw [if_neg hi]
          have hnu : i ∉ (List.range n).filter
              (fun j => !(s.filter (fun e2 => 10 ≤ e2.2.length)).any
                (fun e2 => e2.2.contains j)) := by
            intro hmem
            exact hi (List.mem_range.mp (List.mem_filter.mp hmem).1)
          have hcont : ((lb ++ (List.range n).filter
              (fun j => !(s.filter (fun e2 => 10 ≤ e2.2.length)).any
                (fun e2 => e2.2.contains j))).contains i) = false := by
            have : i ∉ lb ++ (List.range n).filter
                (fun j => !(s.filter (fun e2 => 10 ≤ e2.2.length)).any
                  (fun e2 => e2.2.contains j)) := by
              rw [List.mem_append]
              rintro (h4 | h4)
              · have hnotlb : i ∉ lb := by simpa using hlb0
                exact hnotlb h4
              · exact hnu h4
            simpa using this
          rw [hcont, hlb0, hc0] at hext
          simp only [if_false, Bool.false_eq_true, Nat.add_zero, Nat.zero_add] at hext
          exact hext

/-- C1: for every mesh with at least one vertex and positive vertical
extent, when `geometric_segmentation` returns a segmentation, the label
vertex-sets partition the index range `[0, N)`: every index below the
vertex count lies in exactly one label's list, and no index outside the
range occurs anywhere. -/
theorem claim_geometric_partition (vs : List Vec3) (seg : Segmentation)
    (hne : vs ≠ []) (hpos : 0 < meshHeight vs)
    (hok : geometric_segmentation vs = .ok seg) :
    ∀ i : ℕ, seg.countP (fun e => e.2.contains i) = if i < vs.length then 1 else 0 := by
  have hVne : (normalize_mesh vs).isEmpty = false := by
    rw [List.isEmpty_eq_false]
    simp only [normalize_mesh]
    exact fun hc => hne (List.map_eq_nil_iff.mp hc)
  simp only [geometric_segmentation, hVne, Bool.false_eq_true, if_false] at hok
  have hlen : (((normalize_mesh vs).map Vec3.y).map
      (normHeight (qmin ((normalize_mesh vs).map Vec3.y))
        (qmax ((normalize_mesh vs).map Vec3.y)
          - qmin ((normalize_mesh vs).map Vec3.y)))).length
      = (normalize_mesh vs).length := by
    simp
  have hkeyseq : ((runLoop (loopItems (normalize_mesh vs)
      (((normalize_mesh vs).map Vec3.y).map
        (normHeight (qmin ((normalize_mesh vs).map Vec3.y))
          (qmax ((normalize_mesh vs).map Vec3.y)
            - qmin ((normalize_mesh vs).map Vec3.y))))) initSeg).map Prod.fst)
      = partNames := by
    rw [runLoop_initSeg, List.map_map]
    rfl
  have hkeys : ((runLoop (loopItems (normalize_mesh vs)
      (((normalize_mesh vs).map Vec3.y).map
        (normHeight (qmin ((normalize_mesh vs).map Vec3.y))
          (qmax ((normalize_mesh vs).map Vec3.y)
            - qmin ((normalize_mesh vs).map Vec3.y))))) initSeg).map Prod.fst).Nodup := by
    rw [hkeyseq]
    decide
  have hbase := runLoop_countP (normalize_mesh vs)
    (((normalize_mesh vs).map Vec3.y).map
      (normHeight (qmin ((normalize_mesh vs).map Vec3.y))
        (qmax ((normalize_mesh vs).map Vec3.y)
          - qmin ((normalize_mesh vs).map Vec3.y)))) hlen
  have hmain := post_process_partition _ _ seg hkeys hok hbase
  intro i
  have hres := hmain i
  have hVlen : (normalize_mesh vs).length = vs.length := by
    simp [normalize_mesh]
  rwa [hVlen] at hres

theorem claim_geometric_partition_witness :
    geometric_segmentation (⟨0, 0, 0⟩ :: (List.replicate 10 ⟨0, 3/5, 0⟩) ++ [⟨0, 1, 0⟩])
      = .ok [("body", [1, 2, 3, 4, 5, 6, 7, 8, 9, 10, 0, 11])]
    ∧ ([("body", [1, 2, 3, 4, 5, 6, 7, 8, 9, 10, 0, 11])] : Segmentation).countP
        (fun e => e.2.contains 5) = 1
    ∧ ([("body", [1, 2, 3, 4, 5, 6, 7, 8, 9, 10, 0, 11])] : Segmentation).countP
        (fun e => e.2.contains 12) = 0 := by
  have hok : geometric_segmentation
      (⟨0, 0, 0⟩ :: (List.replicate 10 ⟨0, 3/5, 0⟩) ++ [⟨0, 1, 0⟩])
      = .ok [("body", [1, 2, 3, 4, 5, 6, 7, 8, 9, 10, 0, 11])] := by
    norm_num +decide [geometric_segmentation, normalize_mesh, qmean, qsum, qmin, qmax,
      post_process_segmentation, runLoop, loopItems, initSeg, dictListAppend,
      assigned_part, closest_part, bandMatches, is_valid_for_part, normHeight,
      height_ranges, leF, leF', ltF, ltF', ltO, distTo, midpt, List.replicate,
      List.enum, List.enumFrom, List.zip, List.zipWith, List.range, List.range.loop,
      List.foldl, List.filter, List.lookup, List.find?, beqString,
      abs_of_nonneg, abs_of_nonpos]
  have hne : (⟨0, 0, 0⟩ :: (List.replicate 10 ⟨0, 3/5, 0⟩) ++ [⟨0, 1, 0⟩] : List Vec3) ≠ [] := by
    simp
  have hpos : 0 < meshHeight (⟨0, 0, 0⟩ :: (List.replicate 10 ⟨0, 3/5, 0⟩) ++ [⟨0, 1, 0⟩]) := by
    norm_num [meshHeight, normalize_mesh, qmean, qsum, qmin, qmax, List.replicate]
  have h := claim_geometric_partition _ _ hne hpos hok
  refine ⟨hok, ?_, ?_⟩
  · have h5 := h 5
    rwa [if_pos (by simp [List.replicate])] at h5
  · have h12 := h 12
    rwa [if_neg (by simp [List.replicate])] at h12

theorem claim_degenerate_mesh_witness :
    geometric_segmentation (List.replicate 10 ⟨0, 5, 0⟩)
      = .ok [("body", List.range 10)] := by
  apply claim_degenerate_mesh.2 (List.replicate 10 ⟨0, 5, 0⟩)
  · simp [List.replicate]
  · norm_num [meshHeight, normalize_mesh, qmean, qsum, qmin, qmax, List.replicate]
  · simp

end BodySeg
